import Mathlib

/-!
# s3SyncCli: the inventory / diff / reconcile pipeline of `cmd/upload.go` and `cmd/download.go`

A shallow embedding of `uploadToS3`, `uploadFile`, `downloadToLocal` and `downloadFile`.

* The local directory and the bucket are finite maps with unique keys (`AList`): the tree
  maps the relative path of an entry, as `filepath.Rel` returns it for a walked path, to the
  entry, and the bucket maps an object key to the object.  Paths are Unix paths without
  symbolic or hard links.
* An object key is any string.  `downloadFile` writes to `filepath.Join(localDir, s3Key)`,
  which cleans the joined path: `landing` computes where that path lies with respect to the
  local directory.  Directories made by `os.MkdirAll` are not recorded in the tree.
* Go maps (`localFiles`, `s3Objects`) are `AList String String`; `m[k] = v` is `AList.insert`.
  The order of a `range` loop over a map is not fixed by Go: a `RangeOrder` supplies, for every
  loop, some permutation of the entries.
* Every call that can fail in the source (`Call`) fails or not according to `Env.fails`.
  `computeMD5Checksum` is defined outside the two command files; it is the parameter
  `Env.computeMD5Checksum`.
  The tag the store gives to the bytes of a put is the parameter `Env.tagOf`.
* A run returns the final world, the trace of transfer and deletion calls (with their result)
  and of "Skipped (unchanged)" lines, and the error it returned, if any.
-/

namespace S3Sync

/-! ## Data model -/

/-- File and object contents. -/
abbrev Bytes := List Nat

/-- An object of the bucket: its bytes and the ETag the listing reports for it. -/
structure Object where
  body : Bytes
  etag : String
  deriving DecidableEq, Repr

/-- An entry of the local directory tree, as seen by `filepath.Walk`. -/
inductive Node where
  | dir : Node
  | file (content : Bytes) : Node
  deriving DecidableEq, Repr

/-- The two sides: the entries under the local directory, keyed by relative path, and the
objects of the bucket, keyed by object key. -/
structure World where
  tree : AList (fun _ : String => Node)
  bucket : AList (fun _ : String => Object)

/-- A Go `map[string]string`. -/
abbrev GoMap := AList (fun _ : String => String)

/-- The calls of the source that can return an error. -/
inductive Call where
  | newSession : Call
  | headBucket : Call
  | createBucket : Call
  | walkEntry (path : String) : Call
  | rel (path : String) : Call
  | computeMD5 (path : String) : Call
  | listPage (n : Nat) : Call
  | osOpen (key : String) : Call
  | putObject (key : String) : Call
  | getObject (key : String) : Call
  | mkdirAll (key : String) : Call
  | osCreate (key : String) : Call
  | ioCopy (key : String) : Call
  | deleteObject (key : String) : Call
  | osRemove (key : String) : Call
  deriving DecidableEq, Repr

/-- The errors a run returns. -/
inductive Err where
  | session : Err
  | bucket : Err
  | walk (path : String) : Err
  | list : Err
  | transfer (key : String) : Err
  | delete (key : String) : Err
  deriving DecidableEq, Repr

/-- The collaborators of a run: the fingerprint function, the store's tagging of put bytes,
the page size of the listing, which calls fail, how many bytes a failing `io.Copy`
has written, and the elements of the absolute path of the local directory. -/
structure Env where
  computeMD5Checksum : Bytes → String
  tagOf : Bytes → String
  maxKeys : Nat
  fails : Call → Bool
  copied : String → Nat
  localDir : List String

/-- The order in which each `range` loop of a run (numbered 0, 1) visits the entries of its
map: some permutation of them. -/
structure RangeOrder where
  order : Nat → GoMap → List (Sigma (fun _ : String => String))
  perm : ∀ i m, (order i m).Perm m.entries

/-- What a run does, in order: transfer and deletion calls with their result (`true`: the
call returned no error), and the keys reported as skipped. -/
inductive Event where
  | upload (key : String) (ok : Bool) : Event
  | download (key : String) (ok : Bool) : Event
  | deleteObject (key : String) (ok : Bool) : Event
  | remove (key : String) (ok : Bool) : Event
  | skipped (key : String) : Event
  deriving DecidableEq, Repr

/-- The result of a run. -/
structure Outcome where
  world : World
  trace : List Event
  err : Option Err

/-! ## Inventories -/

/-- The double-quote character. -/
def quote : Char := Char.ofNat 34

/-- Go `strings.Trim(s, "\"")`: for a one-byte ASCII cutset this is
`trimLeftByte(trimRightByte(s, c), c)`. -/
def trimQuotes (s : String) : String :=
  String.mk ((s.data.rdropWhile (fun c => c == quote)).dropWhile (fun c => c == quote))

/-- The callback of `filepath.Walk`, applied to the entries in walk order: an entry the walk
reports with an error, a failing `filepath.Rel` or a failing `computeMD5Checksum` ends the
walk with that error; directories are not recorded. -/
def walk (env : Env) : List (Sigma (fun _ : String => Node)) → GoMap → Except Err GoMap
  | [], localFiles => .ok localFiles
  | ⟨path, node⟩ :: rest, localFiles =>
    if env.fails (.walkEntry path) then .error (.walk path)
    else match node with
      | .dir => walk env rest localFiles
      | .file content =>
        if env.fails (.rel path) then .error (.walk path)
        else if env.fails (.computeMD5 path) then .error (.walk path)
        else walk env rest (localFiles.insert path (env.computeMD5Checksum content))

/-- Splits a listing into pages of at most `size` entries (`room` is what is left of the
current page `cur`); an empty listing is one empty page. -/
def pagesAux {α : Type} (size : Nat) : List α → Nat → List α → List (List α)
  | [], _, cur => [cur.reverse]
  | x :: xs, 0, cur => cur.reverse :: pagesAux size xs (size - 1) [x]
  | x :: xs, room + 1, cur => pagesAux size xs room (x :: cur)

/-- The pages of a listing. -/
def pages {α : Type} (size : Nat) (l : List α) : List (List α) :=
  pagesAux size l size []

/-- The page callback of the listing: `s3Objects[key] = strings.Trim(etag, "\"")` for every
object of the page. -/
def recordPage (page : List (Sigma (fun _ : String => Object))) (s3Objects : GoMap) : GoMap :=
  page.foldl (fun m obj => m.insert obj.1 (trimQuotes obj.2.etag)) s3Objects

/-- `ListObjectsV2Pages`: page `n` is requested, then recorded; a failing request ends the
listing with an error. -/
def listObjectsV2Pages (env : Env) :
    Nat → List (List (Sigma (fun _ : String => Object))) → GoMap → Except Err GoMap
  | _, [], s3Objects => .ok s3Objects
  | n, page :: rest, s3Objects =>
    if env.fails (.listPage n) then .error .list
    else listObjectsV2Pages env (n + 1) rest (recordPage page s3Objects)

/-- The local inventory of a world. -/
def localInventory (env : Env) (w : World) : Except Err GoMap :=
  walk env w.tree.entries ∅

/-- The remote inventory of a world. -/
def remoteInventory (env : Env) (w : World) : Except Err GoMap :=
  listObjectsV2Pages env 0 (pages env.maxKeys w.bucket.entries) ∅

/-- The test `!exists || a != b` of both transfer loops, for the source value `v` of key `k`
against the destination map. -/
def needsTransfer (dest : GoMap) (k v : String) : Bool :=
  match dest.lookup k with
  | none => true
  | some d => v != d

/-! ## Upload -/

/-- `uploadFile`: opens the local file and puts its bytes under the key. -/
def uploadFile (env : Env) (w : World) (relativePath : String) : World × Option Err :=
  if env.fails (.osOpen relativePath) then (w, some (.transfer relativePath))
  else match w.tree.lookup relativePath with
    | some (.file content) =>
      if env.fails (.putObject relativePath) then (w, some (.transfer relativePath))
      else (⟨w.tree, w.bucket.insert relativePath ⟨content, env.tagOf content⟩⟩, none)
    | _ => (w, some (.transfer relativePath))

/-- The loop "Upload new or updated files" over the entries of `localFiles` in range order. -/
def uploadLoop (env : Env) (s3Objects : GoMap) :
    List (Sigma (fun _ : String => String)) → World → Outcome
  | [], w => ⟨w, [], none⟩
  | ⟨relativePath, localChecksum⟩ :: rest, w =>
    if needsTransfer s3Objects relativePath localChecksum then
      match uploadFile env w relativePath with
      | (w1, some e) => ⟨w1, [.upload relativePath false], some e⟩
      | (w1, none) =>
        let o := uploadLoop env s3Objects rest w1
        ⟨o.world, .upload relativePath true :: o.trace, o.err⟩
    else
      let o := uploadLoop env s3Objects rest w
      ⟨o.world, .skipped relativePath :: o.trace, o.err⟩

/-- The loop deleting the objects that are not in the local directory, over the entries of
`s3Objects` in range order. -/
def deleteObjectsLoop (env : Env) (localFiles : GoMap) :
    List (Sigma (fun _ : String => String)) → World → Outcome
  | [], w => ⟨w, [], none⟩
  | ⟨s3Key, _⟩ :: rest, w =>
    if (localFiles.lookup s3Key).isSome then deleteObjectsLoop env localFiles rest w
    else if env.fails (.deleteObject s3Key) then
      ⟨w, [.deleteObject s3Key false], some (.delete s3Key)⟩
    else
      let o := deleteObjectsLoop env localFiles rest ⟨w.tree, w.bucket.erase s3Key⟩
      ⟨o.world, .deleteObject s3Key true :: o.trace, o.err⟩

/-- The two loops of `uploadToS3`, on the two inventories. -/
def uploadReconcile (env : Env) (ro : RangeOrder) (deleteExtra : Bool)
    (localFiles s3Objects : GoMap) (w : World) : Outcome :=
  let o := uploadLoop env s3Objects (ro.order 0 localFiles) w
  match o.err with
  | some _ => o
  | none =>
    if deleteExtra then
      let d := deleteObjectsLoop env localFiles (ro.order 1 s3Objects) o.world
      ⟨d.world, o.trace ++ d.trace, d.err⟩
    else o

/-- `uploadToS3`. -/
def uploadToS3 (env : Env) (ro : RangeOrder) (deleteExtra : Bool) (w : World) : Outcome :=
  if env.fails .newSession then ⟨w, [], some .session⟩
  else if env.fails .headBucket && env.fails .createBucket then ⟨w, [], some .bucket⟩
  else match localInventory env w with
    | .error e => ⟨w, [], some e⟩
    | .ok localFiles =>
      match remoteInventory env w with
      | .error e => ⟨w, [], some e⟩
      | .ok s3Objects => uploadReconcile env ro deleteExtra localFiles s3Objects w

/-! ## Download -/

/-- The separator of path elements. -/
def slash : Char := Char.ofNat 47

/-- The character of the path elements `.` and `..`. -/
def dot : Char := Char.ofNat 46

/-- The elements of a path: the runs of characters between separators. -/
def splitSlash : List Char → List (List Char)
  | [] => [[]]
  | c :: cs =>
    if c = slash then [] :: splitSlash cs
    else match splitSlash cs with
      | [] => [[c]]
      | e :: es => (c :: e) :: es

/-- The path with the given elements. -/
def joinSlash : List (List Char) → List Char
  | [] => []
  | [e] => e
  | e :: es => e ++ slash :: joinSlash es

/-- Go `filepath.Clean` on an absolute path, element by element: `stack` holds the elements
kept so far, the last one first; an empty element and `.` are dropped, `..` removes the
element before it (and is dropped at the root), any other element is kept. -/
def cleanOnto : List (List Char) → List (List Char) → List (List Char)
  | stack, [] => stack
  | stack, e :: es =>
    if e = [] ∨ e = [dot] then cleanOnto stack es
    else if e = [dot, dot] then cleanOnto stack.tail es
    else cleanOnto (e :: stack) es

/-- What is left of a path after the elements of the directory, if it starts with them. -/
def stripDir : List (List Char) → List (List Char) → Option (List (List Char))
  | [], path => some path
  | _ :: _, [] => none
  | d :: ds, e :: es => if d = e then stripDir ds es else none

/-- Where a path lies with respect to the local directory: at a relative path inside it, at
the directory itself, or outside it. -/
inductive Landing where
  | inside (path : String) : Landing
  | directory : Landing
  | outside : Landing
  deriving DecidableEq, Repr

/-- Where `filepath.Join(localDir, key)` lies: the elements of the key are cleaned onto the
elements of the directory. -/
def landing (localDir : List String) (key : String) : Landing :=
  match stripDir (localDir.map String.data)
      (cleanOnto (localDir.map String.data).reverse (splitSlash key.data)).reverse with
  | none => .outside
  | some [] => .directory
  | some (e :: es) => .inside (String.mk (joinSlash (e :: es)))

/-- A clean relative path, as `filepath.Rel` returns it for a file under the directory: no
element is empty, `.` or `..`. -/
def isRelPath (key : String) : Bool :=
  (splitSlash key.data).all (fun e => e ≠ [] ∧ e ≠ [dot] ∧ e ≠ [dot, dot])

/-- `downloadFile`: gets the object, makes the parent directories of
`filepath.Join(localDir, s3Key)`, creates the file at that path and copies the body into it.
`os.Create` fails on a directory; a file created outside the local directory leaves the tree
as it is.  A copy that fails leaves the bytes written so far. -/
def downloadFile (env : Env) (w : World) (s3Key : String) : World × Option Err :=
  if env.fails (.getObject s3Key) then (w, some (.transfer s3Key))
  else match w.bucket.lookup s3Key with
    | none => (w, some (.transfer s3Key))
    | some obj =>
      if env.fails (.mkdirAll s3Key) then (w, some (.transfer s3Key))
      else if env.fails (.osCreate s3Key) then (w, some (.transfer s3Key))
      else match landing env.localDir s3Key with
        | .directory => (w, some (.transfer s3Key))
        | .outside =>
          if env.fails (.ioCopy s3Key) then (w, some (.transfer s3Key)) else (w, none)
        | .inside localFilePath =>
          if w.tree.lookup localFilePath == some .dir then (w, some (.transfer s3Key))
          else if env.fails (.ioCopy s3Key) then
            (⟨w.tree.insert localFilePath (.file (obj.body.take (env.copied s3Key))),
              w.bucket⟩, some (.transfer s3Key))
          else (⟨w.tree.insert localFilePath (.file obj.body), w.bucket⟩, none)

/-- The loop "Download new or updated files" over the entries of `s3Objects` in range
order. -/
def downloadLoop (env : Env) (localFiles : GoMap) :
    List (Sigma (fun _ : String => String)) → World → Outcome
  | [], w => ⟨w, [], none⟩
  | ⟨s3Key, s3Checksum⟩ :: rest, w =>
    if needsTransfer localFiles s3Key s3Checksum then
      match downloadFile env w s3Key with
      | (w1, some e) => ⟨w1, [.download s3Key false], some e⟩
      | (w1, none) =>
        let o := downloadLoop env localFiles rest w1
        ⟨o.world, .download s3Key true :: o.trace, o.err⟩
    else
      let o := downloadLoop env localFiles rest w
      ⟨o.world, .skipped s3Key :: o.trace, o.err⟩

/-- The loop deleting the local files that are not in the bucket, over the entries of
`localFiles` in range order. -/
def removeFilesLoop (env : Env) (s3Objects : GoMap) :
    List (Sigma (fun _ : String => String)) → World → Outcome
  | [], w => ⟨w, [], none⟩
  | ⟨localKey, _⟩ :: rest, w =>
    if (s3Objects.lookup localKey).isSome then removeFilesLoop env s3Objects rest w
    else if env.fails (.osRemove localKey) || (w.tree.lookup localKey).isNone then
      ⟨w, [.remove localKey false], some (.delete localKey)⟩
    else
      let o := removeFilesLoop env s3Objects rest ⟨w.tree.erase localKey, w.bucket⟩
      ⟨o.world, .remove localKey true :: o.trace, o.err⟩

/-- The two loops of `downloadToLocal`, on the two inventories. -/
def downloadReconcile (env : Env) (ro : RangeOrder) (deleteExtra : Bool)
    (localFiles s3Objects : GoMap) (w : World) : Outcome :=
  let o := downloadLoop env localFiles (ro.order 0 s3Objects) w
  match o.err with
  | some _ => o
  | none =>
    if deleteExtra then
      let d := removeFilesLoop env s3Objects (ro.order 1 localFiles) o.world
      ⟨d.world, o.trace ++ d.trace, d.err⟩
    else o

/-- `downloadToLocal`. -/
def downloadToLocal (env : Env) (ro : RangeOrder) (deleteExtra : Bool) (w : World) : Outcome :=
  if env.fails .newSession then ⟨w, [], some .session⟩
  else if env.fails .headBucket then ⟨w, [], some .bucket⟩
  else match localInventory env w with
    | .error e => ⟨w, [], some e⟩
    | .ok localFiles =>
      match remoteInventory env w with
      | .error e => ⟨w, [], some e⟩
      | .ok s3Objects => downloadReconcile env ro deleteExtra localFiles s3Objects w

/-! ## Sample inputs -/

/-- A sample fingerprint: the bytes read as characters. -/
def sampleDigest (b : Bytes) : String := String.mk (b.map Char.ofNat)

/-- A string wrapped in one pair of double quotes. -/
def quoted (s : String) : String := String.mk (quote :: s.data ++ [quote])

/-- A sample environment in which no call fails: the store tags put bytes with their quoted
fingerprint and lists two keys per page; the local directory is `/srv/data`. -/
def sampleEnv : Env :=
  ⟨sampleDigest, fun b => quoted (sampleDigest b), 2, fun _ => false, fun _ => 0,
    ["srv", "data"]⟩

/-- The sample environment, except that the second page of the listing fails. -/
def sampleListFaultEnv : Env :=
  ⟨sampleDigest, fun b => quoted (sampleDigest b), 2, fun c => c == .listPage 1, fun _ => 0,
    ["srv", "data"]⟩

/-- The sample environment, except that `computeMD5Checksum` fails for `newfile.json`. -/
def sampleWalkFaultEnv : Env :=
  ⟨sampleDigest, fun b => quoted (sampleDigest b), 2,
    fun c => c == .computeMD5 "newfile.json", fun _ => 0, ["srv", "data"]⟩

/-- Every `range` loop visits the entries as stored. -/
def rangeStored : RangeOrder := ⟨fun _ m => m.entries, fun _ _ => List.Perm.refl _⟩

/-- Every `range` loop visits the entries in the reverse order. -/
def rangeReversed : RangeOrder := ⟨fun _ m => m.entries.reverse, fun _ _ => List.reverse_perm _⟩

/-- A sample local tree: a changed file, an unchanged file in a directory, a new file. -/
def sampleTree : AList (fun _ : String => Node) :=
  (((AList.insert "mvs" Node.dir ∅).insert "index.json" (.file [110, 101, 119])).insert
    "mvs/indexmvs.json" (.file [109])).insert "newfile.json" (.file [102])

/-- A sample bucket: an object that differs from the local file, one that equals it, and one
with no local file. -/
def sampleBucket : AList (fun _ : String => Object) :=
  ((AList.insert "index.json" ⟨[111, 108, 100], quoted "old"⟩ ∅).insert
    "mvs/indexmvs.json" ⟨[109], quoted "m"⟩).insert "extra.json" ⟨[120], quoted "x"⟩

/-- A bucket holding one object whose tag is not the fingerprint of its bytes, as for an
object written by a multi-part upload, and an empty local directory. -/
def multipartWorld : World :=
  ⟨∅, AList.insert "big.bin" ⟨[98, 105, 103], quoted "0f343b0931126a20f133d67c2b018a3b-2"⟩ ∅⟩

/-- A local file `mvs` and a bucket whose one object has the key `mvs/`, tagged with the
fingerprint of its bytes. -/
def slashKeyWorld : World :=
  ⟨AList.insert "mvs" (.file [108]) ∅, AList.insert "mvs/" ⟨[114], quoted "r"⟩ ∅⟩

/-- The sample world. -/
def sampleWorld : World := ⟨sampleTree, sampleBucket⟩

/-- The local inventory of the sample world. -/
def sampleLocalFiles : GoMap :=
  ((AList.insert "newfile.json" "f" ∅).insert "mvs/indexmvs.json" "m").insert "index.json" "new"

/-- The remote inventory of the sample world. -/
def sampleS3Objects : GoMap :=
  ((AList.insert "extra.json" "x" ∅).insert "mvs/indexmvs.json" "m").insert "index.json" "old"

/-- The walk meets an error at the entry `path`: the entry is reported with an error, or it
is a file and `filepath.Rel` or `computeMD5Checksum` fails for it. -/
def walkFault (env : Env) (path : String) (node : Node) : Prop :=
  env.fails (.walkEntry path) = true ∨
    ∃ c, node = .file c ∧ (env.fails (.rel path) = true ∨ env.fails (.computeMD5 path) = true)

theorem walk_lookup (env : Env) :
    ∀ (l : List (Sigma (fun _ : String => Node))) (m m' : GoMap),
      l.NodupKeys → walk env l m = .ok m' →
      ∀ k, m'.lookup k = match l.dlookup k with
        | some (.file c) => some (env.computeMD5Checksum c)
        | _ => m.lookup k := by
  intro l
  induction l with
  | nil => intro m m' _ h k; simp [walk] at h; subst h; simp
  | cons x rest ih =>
    obtain ⟨p, node⟩ := x
    intro m m' hnd h k
    rw [List.nodupKeys_cons] at hnd
    obtain ⟨hp, hrest⟩ := hnd
    simp only [walk] at h
    split at h
    · cases h
    · cases node with
      | dir =>
        simp only at h
        have := ih m m' hrest h k
        rw [this]
        by_cases hk : k = p
        · subst hk
          have hn : List.dlookup k rest = none := List.dlookup_eq_none.mpr hp
          simp [List.dlookup_cons_eq, hn]
        · rw [List.dlookup_cons_ne _ _ hk]
      | file c =>
        simp only at h
        split at h
        · cases h
        · split at h
          · cases h
          · have := ih _ m' hrest h k
            rw [this]
            by_cases hk : k = p
            · subst hk
              have hn : List.dlookup k rest = none := List.dlookup_eq_none.mpr hp
              simp [List.dlookup_cons_eq, hn, AList.lookup_insert]
            · rw [List.dlookup_cons_ne _ _ hk]
              cases hd : List.dlookup k rest with
              | none => simp [AList.lookup_insert_ne hk]
              | some n => cases n <;> simp [AList.lookup_insert_ne hk]

theorem localInventory_lookup (env : Env) (w : World) (L : GoMap)
    (h : localInventory env w = .ok L) (k : String) :
    L.lookup k = match w.tree.lookup k with
      | some (.file c) => some (env.computeMD5Checksum c)
      | _ => none := by
  have := walk_lookup env w.tree.entries ∅ L w.tree.nodupKeys h k
  rw [this]
  simp only [AList.lookup]
  cases List.dlookup k w.tree.entries with
  | none => rfl
  | some n => cases n <;> rfl

theorem recordPage_append (a b : List (Sigma (fun _ : String => Object))) (m : GoMap) :
    recordPage (a ++ b) m = recordPage b (recordPage a m) := by
  simp [recordPage, List.foldl_append]

theorem recordPage_lookup :
    ∀ (l : List (Sigma (fun _ : String => Object))) (m : GoMap), l.NodupKeys →
      ∀ k, (recordPage l m).lookup k = match l.dlookup k with
        | some o => some (trimQuotes o.etag)
        | none => m.lookup k := by
  intro l
  induction l with
  | nil => intro m _ k; simp [recordPage]
  | cons x rest ih =>
    obtain ⟨p, o⟩ := x
    intro m hnd k
    rw [List.nodupKeys_cons] at hnd
    obtain ⟨hp, hrest⟩ := hnd
    have hstep : recordPage (⟨p, o⟩ :: rest) m
        = recordPage rest (m.insert p (trimQuotes o.etag)) := by
      simp [recordPage]
    rw [hstep, ih _ hrest k]
    by_cases hk : k = p
    · subst hk
      have hn : List.dlookup k rest = none := List.dlookup_eq_none.mpr hp
      simp [List.dlookup_cons_eq, hn, AList.lookup_insert]
    · rw [List.dlookup_cons_ne _ _ hk]
      cases hd : List.dlookup k rest with
      | none => simp [AList.lookup_insert_ne hk]
      | some n => simp

theorem pagesAux_flatten {α : Type} (size : Nat) :
    ∀ (l : List α) (room : Nat) (cur : List α),
      (pagesAux size l room cur).flatten = cur.reverse ++ l := by
  intro l
  induction l with
  | nil => intro room cur; simp [pagesAux]
  | cons x xs ih =>
    intro room cur
    cases room with
    | zero => simp [pagesAux, ih]
    | succ n => simp [pagesAux, ih]

theorem pages_flatten {α : Type} (size : Nat) (l : List α) : (pages size l).flatten = l := by
  simp [pages, pagesAux_flatten]

theorem listObjectsV2Pages_ok (env : Env) :
    ∀ (ps : List (List (Sigma (fun _ : String => Object)))) (n : Nat) (m m' : GoMap),
      listObjectsV2Pages env n ps m = .ok m' → m' = recordPage ps.flatten m := by
  intro ps
  induction ps with
  | nil => intro n m m' h; simp [listObjectsV2Pages] at h; subst h; simp [recordPage]
  | cons page rest ih =>
    intro n m m' h
    simp only [listObjectsV2Pages] at h
    split at h
    · cases h
    · rw [ih _ _ _ h, List.flatten_cons, recordPage_append]

theorem remoteInventory_lookup (env : Env) (w : World) (R : GoMap)
    (h : remoteInventory env w = .ok R) (k : String) :
    R.lookup k = (w.bucket.lookup k).map (fun o => trimQuotes o.etag) := by
  have h1 := listObjectsV2Pages_ok env _ _ _ _ h
  rw [pages_flatten] at h1
  subst h1
  rw [recordPage_lookup _ _ w.bucket.nodupKeys k]
  simp only [AList.lookup]
  cases List.dlookup k w.bucket.entries with
  | none => simp
  | some o => simp

/-! ## Traces -/

theorem uploadFile_ok {env : Env} {w w1 : World} {k : String}
    (h : uploadFile env w k = (w1, none)) :
    ∃ c, w.tree.lookup k = some (.file c) ∧
      w1 = ⟨w.tree, w.bucket.insert k ⟨c, env.tagOf c⟩⟩ := by
  unfold uploadFile at h
  split at h
  · simp at h
  · split at h
    · rename_i c hc
      split at h
      · simp at h
      · simp only [Prod.mk.injEq, and_true] at h
        exact ⟨c, hc, h.symm⟩
    · simp at h

theorem uploadFile_err {env : Env} {w w1 : World} {k : String} {e : Err}
    (h : uploadFile env w k = (w1, some e)) : w1 = w := by
  unfold uploadFile at h
  split at h
  · simp at h; exact h.1.symm
  · split at h
    · split at h
      · simp at h; exact h.1.symm
      · simp at h
    · simp at h; exact h.1.symm

theorem uploadLoop_tree (env : Env) (R : GoMap) :
    ∀ (items : List (Sigma (fun _ : String => String))) (w : World),
      (uploadLoop env R items w).world.tree = w.tree := by
  intro items
  induction items with
  | nil => intro w; rfl
  | cons x rest ih =>
    obtain ⟨k, v⟩ := x
    intro w
    simp only [uploadLoop]
    split
    · split
      · rename_i w1 e h; simp [uploadFile_err h]
      · rename_i w1 h
        obtain ⟨c, _, hw⟩ := uploadFile_ok h
        simp only [ih]
        rw [hw]
    · simp only [ih]

theorem uploadLoop_events (env : Env) (R : GoMap) :
    ∀ (items : List (Sigma (fun _ : String => String))) (w : World),
      ∀ e ∈ (uploadLoop env R items w).trace,
        (∃ k v ok, e = .upload k ok ∧ ⟨k, v⟩ ∈ items ∧ needsTransfer R k v = true) ∨
        (∃ k v, e = .skipped k ∧ ⟨k, v⟩ ∈ items ∧ needsTransfer R k v = false) := by
  intro items
  induction items with
  | nil => intro w e he; simp [uploadLoop] at he
  | cons x rest ih =>
    obtain ⟨k, v⟩ := x
    intro w e he
    simp only [uploadLoop] at he
    split at he
    · rename_i hn
      split at he
      · simp only [List.mem_singleton] at he
        exact Or.inl ⟨k, v, false, he, by simp, hn⟩
      · rename_i w1 h
        simp only [List.mem_cons] at he
        rcases he with he | he
        · exact Or.inl ⟨k, v, true, he, by simp, hn⟩
        · rcases ih w1 e he with ⟨k', v', ok, h1, h2, h3⟩ | ⟨k', v', h1, h2, h3⟩
          · exact Or.inl ⟨k', v', ok, h1, by simp [h2], h3⟩
          · exact Or.inr ⟨k', v', h1, by simp [h2], h3⟩
    · rename_i hn
      simp only [List.mem_cons] at he
      rcases he with he | he
      · exact Or.inr ⟨k, v, he, by simp, by simpa using hn⟩
      · rcases ih w e he with ⟨k', v', ok, h1, h2, h3⟩ | ⟨k', v', h1, h2, h3⟩
        · exact Or.inl ⟨k', v', ok, h1, by simp [h2], h3⟩
        · exact Or.inr ⟨k', v', h1, by simp [h2], h3⟩

theorem uploadLoop_complete (env : Env) (R : GoMap) :
    ∀ (items : List (Sigma (fun _ : String => String))) (w : World),
      (uploadLoop env R items w).err = none →
      ∀ k v, (⟨k, v⟩ : Sigma (fun _ : String => String)) ∈ items →
        (needsTransfer R k v = true → Event.upload k true ∈ (uploadLoop env R items w).trace) ∧
        (needsTransfer R k v = false → Event.skipped k ∈ (uploadLoop env R items w).trace) := by
  intro items
  induction items with
  | nil => intro w _ k v hm; simp at hm
  | cons x rest ih =>
    obtain ⟨k0, v0⟩ := x
    intro w herr k v hm
    simp only [uploadLoop] at herr ⊢
    split
    · rename_i hn
      split
      · rename_i w1 e h
        simp [hn, h] at herr
      · rename_i w1 h
        simp only [hn, h, if_true] at herr
        simp only [List.mem_cons] at hm
        rcases hm with hm | hm
        · cases hm
          simp [hn]
        · have := ih w1 herr k v hm
          exact ⟨fun h1 => List.mem_cons_of_mem _ (this.1 h1),
            fun h1 => List.mem_cons_of_mem _ (this.2 h1)⟩
    · rename_i hn
      simp only [hn] at herr
      simp only [List.mem_cons] at hm
      rcases hm with hm | hm
      · cases hm
        simp [hn]
      · have := ih w herr k v hm
        exact ⟨fun h1 => List.mem_cons_of_mem _ (this.1 h1),
          fun h1 => List.mem_cons_of_mem _ (this.2 h1)⟩

theorem uploadLoop_frame (env : Env) (R : GoMap) (k : String) :
    ∀ (items : List (Sigma (fun _ : String => String))) (w : World),
      (∀ v, (⟨k, v⟩ : Sigma (fun _ : String => String)) ∈ items → needsTransfer R k v = false) →
      (uploadLoop env R items w).world.bucket.lookup k = w.bucket.lookup k := by
  intro items
  induction items with
  | nil => intro w _; rfl
  | cons x rest ih =>
    obtain ⟨k0, v0⟩ := x
    intro w hk
    have hrest : ∀ v, (⟨k, v⟩ : Sigma (fun _ : String => String)) ∈ rest →
        needsTransfer R k v = false := fun v hv => hk v (List.mem_cons_of_mem _ hv)
    simp only [uploadLoop]
    split
    · rename_i hn
      have hne : k ≠ k0 := by
        rintro rfl
        have := hk v0 (by simp)
        rw [hn] at this
        cases this
      split
      · rename_i w1 e h; simp [uploadFile_err h]
      · rename_i w1 h
        obtain ⟨c, _, hw⟩ := uploadFile_ok h
        simp only [ih w1 hrest]
        rw [hw]
        exact AList.lookup_insert_ne hne
    · simp only [ih w hrest]

theorem uploadLoop_applied (env : Env) (R : GoMap) (k : String) :
    ∀ (items : List (Sigma (fun _ : String => String))) (w : World),
      items.NodupKeys →
      Event.upload k true ∈ (uploadLoop env R items w).trace →
      ∃ c, w.tree.lookup k = some (.file c) ∧
        (uploadLoop env R items w).world.bucket.lookup k = some ⟨c, env.tagOf c⟩ := by
  intro items
  induction items with
  | nil => intro w _ h; simp [uploadLoop] at h
  | cons x rest ih =>
    obtain ⟨k0, v0⟩ := x
    intro w hnd h
    rw [List.nodupKeys_cons] at hnd
    obtain ⟨hk0, hnd⟩ := hnd
    simp only [uploadLoop] at h ⊢
    split
    · rename_i hn
      split
      · rename_i w1 e hu
        simp [hn, hu] at h
      · rename_i w1 hu
        simp only [hn, hu, if_true, List.mem_cons] at h
        obtain ⟨c, hc, hw⟩ := uploadFile_ok hu
        rcases h with h | h
        · cases h
          refine ⟨c, hc, ?_⟩
          have hfr := uploadLoop_frame env R k rest w1 (fun v hv => by
            exfalso
            have hmem : k ∈ rest.keys := List.mem_keys_of_mem hv
            exact hk0 hmem)
          simp only [hfr]
          rw [hw]
          exact AList.lookup_insert _
        · obtain ⟨c', hc', hb⟩ := ih w1 hnd h
          refine ⟨c', ?_, hb⟩
          rw [hw] at hc'
          exact hc'
    · rename_i hn
      simp only [hn] at h
      rcases List.mem_cons.mp h with h' | h'
      · cases h'
      · exact ih w hnd h'

/-! ## The loop deleting remote objects -/

theorem deleteObjectsLoop_tree (env : Env) (L : GoMap) :
    ∀ (items : List (Sigma (fun _ : String => String))) (w : World),
      (deleteObjectsLoop env L items w).world.tree = w.tree := by
  intro items
  induction items with
  | nil => intro w; rfl
  | cons x rest ih =>
    obtain ⟨k, v⟩ := x
    intro w
    simp only [deleteObjectsLoop]
    split
    · exact ih w
    · split
      · rfl
      · simp only [ih]

theorem deleteObjectsLoop_events (env : Env) (L : GoMap) :
    ∀ (items : List (Sigma (fun _ : String => String))) (w : World),
      ∀ e ∈ (deleteObjectsLoop env L items w).trace,
        ∃ k v ok, e = .deleteObject k ok ∧ ⟨k, v⟩ ∈ items ∧ L.lookup k = none := by
  intro items
  induction items with
  | nil => intro w e he; simp [deleteObjectsLoop] at he
  | cons x rest ih =>
    obtain ⟨k, v⟩ := x
    intro w e he
    simp only [deleteObjectsLoop] at he
    split at he
    · obtain ⟨k', v', ok, h1, h2, h3⟩ := ih w e he
      exact ⟨k', v', ok, h1, by simp [h2], h3⟩
    · rename_i hn
      have hL : L.lookup k = none := by simpa using hn
      split at he
      · simp only [List.mem_singleton] at he
        exact ⟨k, v, false, he, by simp, hL⟩
      · rcases List.mem_cons.mp he with he' | he'
        · exact ⟨k, v, true, he', by simp, hL⟩
        · obtain ⟨k', v', ok, h1, h2, h3⟩ := ih _ e he'
          exact ⟨k', v', ok, h1, by simp [h2], h3⟩

theorem deleteObjectsLoop_complete (env : Env) (L : GoMap) :
    ∀ (items : List (Sigma (fun _ : String => String))) (w : World),
      (deleteObjectsLoop env L items w).err = none →
      ∀ k v, (⟨k, v⟩ : Sigma (fun _ : String => String)) ∈ items → L.lookup k = none →
        Event.deleteObject k true ∈ (deleteObjectsLoop env L items w).trace := by
  intro items
  induction items with
  | nil => intro w _ k v hm; simp at hm
  | cons x rest ih =>
    obtain ⟨k0, v0⟩ := x
    intro w herr k v hm hL
    simp only [deleteObjectsLoop] at herr ⊢
    split
    · rename_i hs
      simp only [hs, if_true] at herr
      rcases List.mem_cons.mp hm with hm' | hm'
      · cases hm'
        simp [hL] at hs
      · exact ih w herr k v hm' hL
    · rename_i hs
      simp only [hs] at herr
      split
      · rename_i hf
        simp [hf] at herr
      · rename_i hf
        simp only [hf] at herr
        rcases List.mem_cons.mp hm with hm' | hm'
        · cases hm'
          simp
        · exact List.mem_cons_of_mem _ (ih _ herr k v hm' hL)

theorem deleteObjectsLoop_frame (env : Env) (L : GoMap) (k : String)
    (hk : L.lookup k ≠ none) :
    ∀ (items : List (Sigma (fun _ : String => String))) (w : World),
      (deleteObjectsLoop env L items w).world.bucket.lookup k = w.bucket.lookup k := by
  intro items
  induction items with
  | nil => intro w; rfl
  | cons x rest ih =>
    obtain ⟨k0, v0⟩ := x
    intro w
    simp only [deleteObjectsLoop]
    split
    · exact ih w
    · rename_i hs
      have hne : k ≠ k0 := by
        rintro rfl
        apply hk
        simpa using hs
      split
      · rfl
      · simp only [ih]
        exact AList.lookup_erase_ne hne

theorem deleteObjectsLoop_shrink (env : Env) (L : GoMap) (k : String) :
    ∀ (items : List (Sigma (fun _ : String => String))) (w : World),
      (deleteObjectsLoop env L items w).world.bucket.lookup k = none ∨
      (deleteObjectsLoop env L items w).world.bucket.lookup k = w.bucket.lookup k := by
  intro items
  induction items with
  | nil => intro w; exact Or.inr rfl
  | cons x rest ih =>
    obtain ⟨k0, v0⟩ := x
    intro w
    simp only [deleteObjectsLoop]
    split
    · exact ih w
    · split
      · exact Or.inr rfl
      · rcases ih ⟨w.tree, w.bucket.erase k0⟩ with h | h
        · exact Or.inl h
        · by_cases hne : k = k0
          · subst hne
            left
            simp only [h]
            exact AList.lookup_erase _ _
          · right
            simp only [h]
            exact AList.lookup_erase_ne hne

theorem deleteObjectsLoop_applied (env : Env) (L : GoMap) (k : String) :
    ∀ (items : List (Sigma (fun _ : String => String))) (w : World),
      Event.deleteObject k true ∈ (deleteObjectsLoop env L items w).trace →
      (deleteObjectsLoop env L items w).world.bucket.lookup k = none := by
  intro items
  induction items with
  | nil => intro w h; simp [deleteObjectsLoop] at h
  | cons x rest ih =>
    obtain ⟨k0, v0⟩ := x
    intro w h
    simp only [deleteObjectsLoop] at h ⊢
    split
    · rename_i hs
      simp only [hs, if_true] at h
      exact ih w h
    · rename_i hs
      simp only [hs] at h
      split
      · rename_i hf
        simp [hf] at h
      · rename_i hf
        simp only [hf] at h
        rcases List.mem_cons.mp h with h' | h'
        · cases h'
          rcases deleteObjectsLoop_shrink env L k rest ⟨w.tree, w.bucket.erase k⟩ with hh | hh
          · exact hh
          · simp only [hh]
            exact AList.lookup_erase _ _
        · exact ih _ h'

/-! ## Paths -/

theorem splitSlash_ne_nil (cs : List Char) : splitSlash cs ≠ [] := by
  cases cs with
  | nil => simp [splitSlash]
  | cons c cs =>
    simp only [splitSlash]
    split
    · simp
    · split <;> simp

theorem joinSlash_splitSlash (cs : List Char) : joinSlash (splitSlash cs) = cs := by
  induction cs with
  | nil => rfl
  | cons c cs ih =>
    simp only [splitSlash]
    split
    · rename_i hc
      cases hs : splitSlash cs with
      | nil => exact absurd hs (splitSlash_ne_nil cs)
      | cons e es =>
        rw [hs] at ih
        simp only [joinSlash, List.nil_append, ih, hc]
    · cases hs : splitSlash cs with
      | nil => exact absurd hs (splitSlash_ne_nil cs)
      | cons e es =>
        rw [hs] at ih
        cases es with
        | nil =>
          simp only [joinSlash] at ih ⊢
          rw [ih]
        | cons e2 es2 =>
          simp only [joinSlash] at ih ⊢
          rw [← ih]
          simp

theorem cleanOnto_of_plain :
    ∀ (es stack : List (List Char)),
      (∀ e ∈ es, e ≠ [] ∧ e ≠ [dot] ∧ e ≠ [dot, dot]) →
      cleanOnto stack es = es.reverse ++ stack := by
  intro es
  induction es with
  | nil => intro stack _; rfl
  | cons e es ih =>
    intro stack h
    have he := h e (by simp)
    simp only [cleanOnto]
    rw [if_neg (by rintro (h1 | h1); exact he.1 h1; exact he.2.1 h1), if_neg he.2.2]
    rw [ih _ (fun x hx => h x (by simp [hx]))]
    simp

theorem stripDir_append : ∀ (d xs : List (List Char)), stripDir d (d ++ xs) = some xs := by
  intro d
  induction d with
  | nil => intro xs; rfl
  | cons a d ih => intro xs; simp [stripDir, ih]

theorem landing_of_isRelPath (localDir : List String) (k : String)
    (h : isRelPath k = true) : landing localDir k = .inside k := by
  unfold isRelPath at h
  have hall : ∀ e ∈ splitSlash k.data, e ≠ [] ∧ e ≠ [dot] ∧ e ≠ [dot, dot] := by
    intro e he
    have := List.all_eq_true.mp h e he
    simpa using this
  unfold landing
  rw [cleanOnto_of_plain _ _ hall]
  simp only [List.reverse_append, List.reverse_reverse, stripDir_append]
  cases hs : splitSlash k.data with
  | nil => exact absurd hs (splitSlash_ne_nil _)
  | cons e es =>
    simp only
    rw [← hs, joinSlash_splitSlash]

/-! ## The download loop -/

theorem downloadFile_ok {env : Env} {w w1 : World} {k : String}
    (hk : landing env.localDir k = .inside k)
    (h : downloadFile env w k = (w1, none)) :
    ∃ o, w.bucket.lookup k = some o ∧
      w1 = ⟨w.tree.insert k (.file o.body), w.bucket⟩ := by
  unfold downloadFile at h
  rw [hk] at h
  split at h
  · simp at h
  · split at h
    · simp at h
    · rename_i o ho
      split at h
      · simp at h
      · split at h
        · simp at h
        · simp only at h
          split at h
          · simp at h
          · split at h
            · simp at h
            · simp only [Prod.mk.injEq, and_true] at h
              exact ⟨o, ho, h.symm⟩

theorem downloadFile_bucket (env : Env) (w : World) (k : String) :
    (downloadFile env w k).1.bucket = w.bucket := by
  unfold downloadFile
  repeat' split
  all_goals rfl

theorem downloadFile_frame (env : Env) (w : World) (k k' : String)
    (hland : landing env.localDir k ≠ .inside k') :
    (downloadFile env w k).1.tree.lookup k' = w.tree.lookup k' := by
  unfold downloadFile
  repeat' split
  all_goals first
    | rfl
    | (rename_i p hp _ _
       have hne : k' ≠ p := by
         rintro rfl
         exact hland hp
       exact AList.lookup_insert_ne hne)

theorem inside_ne_of_ne (env : Env) (k k' : String)
    (hk : landing env.localDir k = .inside k) (hne : k' ≠ k) :
    landing env.localDir k ≠ .inside k' := by
  rw [hk]
  intro h
  cases h
  exact hne rfl

theorem downloadLoop_bucket (env : Env) (L : GoMap) :
    ∀ (items : List (Sigma (fun _ : String => String))) (w : World),
      (downloadLoop env L items w).world.bucket = w.bucket := by
  intro items
  induction items with
  | nil => intro w; rfl
  | cons x rest ih =>
    obtain ⟨k, v⟩ := x
    intro w
    simp only [downloadLoop]
    split
    · split
      · rename_i w1 e h
        have := downloadFile_bucket env w k
        rw [h] at this
        exact this
      · rename_i w1 h
        have := downloadFile_bucket env w k
        rw [h] at this
        simp only [ih]
        exact this
    · simp only [ih]

theorem downloadLoop_events (env : Env) (L : GoMap) :
    ∀ (items : List (Sigma (fun _ : String => String))) (w : World),
      ∀ e ∈ (downloadLoop env L items w).trace,
        (∃ k v ok, e = .download k ok ∧ ⟨k, v⟩ ∈ items ∧ needsTransfer L k v = true) ∨
        (∃ k v, e = .skipped k ∧ ⟨k, v⟩ ∈ items ∧ needsTransfer L k v = false) := by
  intro items
  induction items with
  | nil => intro w e he; simp [downloadLoop] at he
  | cons x rest ih =>
    obtain ⟨k, v⟩ := x
    intro w e he
    simp only [downloadLoop] at he
    split at he
    · rename_i hn
      split at he
      · simp only [List.mem_singleton] at he
        exact Or.inl ⟨k, v, false, he, by simp, hn⟩
      · rename_i w1 h
        rcases List.mem_cons.mp he with he' | he'
        · exact Or.inl ⟨k, v, true, he', by simp, hn⟩
        · rcases ih w1 e he' with ⟨k', v', ok, h1, h2, h3⟩ | ⟨k', v', h1, h2, h3⟩
          · exact Or.inl ⟨k', v', ok, h1, by simp [h2], h3⟩
          · exact Or.inr ⟨k', v', h1, by simp [h2], h3⟩
    · rename_i hn
      rcases List.mem_cons.mp he with he' | he'
      · exact Or.inr ⟨k, v, he', by simp, by simpa using hn⟩
      · rcases ih w e he' with ⟨k', v', ok, h1, h2, h3⟩ | ⟨k', v', h1, h2, h3⟩
        · exact Or.inl ⟨k', v', ok, h1, by simp [h2], h3⟩
        · exact Or.inr ⟨k', v', h1, by simp [h2], h3⟩

theorem downloadLoop_complete (env : Env) (L : GoMap) :
    ∀ (items : List (Sigma (fun _ : String => String))) (w : World),
      (downloadLoop env L items w).err = none →
      ∀ k v, (⟨k, v⟩ : Sigma (fun _ : String => String)) ∈ items →
        (needsTransfer L k v = true →
          Event.download k true ∈ (downloadLoop env L items w).trace) ∧
        (needsTransfer L k v = false →
          Event.skipped k ∈ (downloadLoop env L items w).trace) := by
  intro items
  induction items with
  | nil => intro w _ k v hm; simp at hm
  | cons x rest ih =>
    obtain ⟨k0, v0⟩ := x
    intro w herr k v hm
    simp only [downloadLoop] at herr ⊢
    split
    · rename_i hn
      split
      · rename_i w1 e h
        simp [hn, h] at herr
      · rename_i w1 h
        simp only [hn, h, if_true] at herr
        rcases List.mem_cons.mp hm with hm' | hm'
        · cases hm'
          simp [hn]
        · have := ih w1 herr k v hm'
          exact ⟨fun h1 => List.mem_cons_of_mem _ (this.1 h1),
            fun h1 => List.mem_cons_of_mem _ (this.2 h1)⟩
    · rename_i hn
      simp only [hn] at herr
      rcases List.mem_cons.mp hm with hm' | hm'
      · cases hm'
        simp [hn]
      · have := ih w herr k v hm'
        exact ⟨fun h1 => List.mem_cons_of_mem _ (this.1 h1),
          fun h1 => List.mem_cons_of_mem _ (this.2 h1)⟩

theorem downloadLoop_frame (env : Env) (L : GoMap) (k : String) :
    ∀ (items : List (Sigma (fun _ : String => String))) (w : World),
      (∀ k' v, (⟨k', v⟩ : Sigma (fun _ : String => String)) ∈ items →
        landing env.localDir k' = .inside k') →
      (∀ v, (⟨k, v⟩ : Sigma (fun _ : String => String)) ∈ items → needsTransfer L k v = false) →
      (downloadLoop env L items w).world.tree.lookup k = w.tree.lookup k := by
  intro items
  induction items with
  | nil => intro w _ _; rfl
  | cons x rest ih =>
    obtain ⟨k0, v0⟩ := x
    intro w hclean hk
    have hrest : ∀ v, (⟨k, v⟩ : Sigma (fun _ : String => String)) ∈ rest →
        needsTransfer L k v = false := fun v hv => hk v (List.mem_cons_of_mem _ hv)
    have hcrest : ∀ k' v, (⟨k', v⟩ : Sigma (fun _ : String => String)) ∈ rest →
        landing env.localDir k' = .inside k' :=
      fun k' v hv => hclean k' v (List.mem_cons_of_mem _ hv)
    simp only [downloadLoop]
    split
    · rename_i hn
      have hne : k ≠ k0 := by
        rintro rfl
        have := hk v0 (by simp)
        rw [hn] at this
        cases this
      have hfr := downloadFile_frame env w k0 k
        (inside_ne_of_ne env k0 k (hclean k0 v0 (by simp)) hne)
      split
      · rename_i w1 e h
        rw [h] at hfr
        exact hfr
      · rename_i w1 h
        rw [h] at hfr
        simp only [ih w1 hcrest hrest]
        exact hfr
    · simp only [ih w hcrest hrest]

theorem downloadLoop_applied (env : Env) (L : GoMap) (k : String) :
    ∀ (items : List (Sigma (fun _ : String => String))) (w : World),
      (∀ k' v, (⟨k', v⟩ : Sigma (fun _ : String => String)) ∈ items →
        landing env.localDir k' = .inside k') →
      items.NodupKeys →
      Event.download k true ∈ (downloadLoop env L items w).trace →
      ∃ o, w.bucket.lookup k = some o ∧
        (downloadLoop env L items w).world.tree.lookup k = some (.file o.body) := by
  intro items
  induction items with
  | nil => intro w _ _ h; simp [downloadLoop] at h
  | cons x rest ih =>
    obtain ⟨k0, v0⟩ := x
    intro w hclean hnd h
    have hcrest : ∀ k' v, (⟨k', v⟩ : Sigma (fun _ : String => String)) ∈ rest →
        landing env.localDir k' = .inside k' :=
      fun k' v hv => hclean k' v (List.mem_cons_of_mem _ hv)
    rw [List.nodupKeys_cons] at hnd
    obtain ⟨hk0, hnd⟩ := hnd
    simp only [downloadLoop] at h ⊢
    split
    · rename_i hn
      split
      · rename_i w1 e hu
        simp [hn, hu] at h
      · rename_i w1 hu
        simp only [hn, hu, if_true] at h
        obtain ⟨o, ho, hw⟩ := downloadFile_ok (hclean k0 v0 (by simp)) hu
        rcases List.mem_cons.mp h with h' | h'
        · cases h'
          refine ⟨o, ho, ?_⟩
          have hfr := downloadLoop_frame env L k rest w1 hcrest (fun v hv => by
            exfalso
            have hmem : k ∈ rest.keys := List.mem_keys_of_mem hv
            exact hk0 hmem)
          simp only [hfr]
          rw [hw]
          exact AList.lookup_insert _
        · obtain ⟨o', ho', hb⟩ := ih w1 hcrest hnd h'
          refine ⟨o', ?_, hb⟩
          rw [hw] at ho'
          exact ho'
    · rename_i hn
      simp only [hn] at h
      rcases List.mem_cons.mp h with h' | h'
      · cases h'
      · exact ih w hcrest hnd h'

/-! ## The loop removing local files -/

theorem removeFilesLoop_bucket (env : Env) (R : GoMap) :
    ∀ (items : List (Sigma (fun _ : String => String))) (w : World),
      (removeFilesLoop env R items w).world.bucket = w.bucket := by
  intro items
  induction items with
  | nil => intro w; rfl
  | cons x rest ih =>
    obtain ⟨k, v⟩ := x
    intro w
    simp only [removeFilesLoop]
    split
    · exact ih w
    · split
      · rfl
      · simp only [ih]

theorem removeFilesLoop_events (env : Env) (R : GoMap) :
    ∀ (items : List (Sigma (fun _ : String => String))) (w : World),
      ∀ e ∈ (removeFilesLoop env R items w).trace,
        ∃ k v ok, e = .remove k ok ∧ ⟨k, v⟩ ∈ items ∧ R.lookup k = none := by
  intro items
  induction items with
  | nil => intro w e he; simp [removeFilesLoop] at he
  | cons x rest ih =>
    obtain ⟨k, v⟩ := x
    intro w e he
    simp only [removeFilesLoop] at he
    split at he
    · obtain ⟨k', v', ok, h1, h2, h3⟩ := ih w e he
      exact ⟨k', v', ok, h1, by simp [h2], h3⟩
    · rename_i hn
      have hR : R.lookup k = none := by simpa using hn
      split at he
      · simp only [List.mem_singleton] at he
        exact ⟨k, v, false, he, by simp, hR⟩
      · rcases List.mem_cons.mp he with he' | he'
        · exact ⟨k, v, true, he', by simp, hR⟩
        · obtain ⟨k', v', ok, h1, h2, h3⟩ := ih _ e he'
          exact ⟨k', v', ok, h1, by simp [h2], h3⟩

theorem removeFilesLoop_complete (env : Env) (R : GoMap) :
    ∀ (items : List (Sigma (fun _ : String => String))) (w : World),
      (removeFilesLoop env R items w).err = none →
      ∀ k v, (⟨k, v⟩ : Sigma (fun _ : String => String)) ∈ items → R.lookup k = none →
        Event.remove k true ∈ (removeFilesLoop env R items w).trace := by
  intro items
  induction items with
  | nil => intro w _ k v hm; simp at hm
  | cons x rest ih =>
    obtain ⟨k0, v0⟩ := x
    intro w herr k v hm hR
    simp only [removeFilesLoop] at herr ⊢
    split
    · rename_i hs
      simp only [hs, if_true] at herr
      rcases List.mem_cons.mp hm with hm' | hm'
      · cases hm'
        simp [hR] at hs
      · exact ih w herr k v hm' hR
    · rename_i hs
      simp only [hs] at herr
      split
      · rename_i hf
        simp [hf] at herr
      · rename_i hf
        simp only [hf] at herr
        rcases List.mem_cons.mp hm with hm' | hm'
        · cases hm'
          simp
        · exact List.mem_cons_of_mem _ (ih _ herr k v hm' hR)

theorem removeFilesLoop_frame (env : Env) (R : GoMap) (k : String)
    (hk : R.lookup k ≠ none) :
    ∀ (items : List (Sigma (fun _ : String => String))) (w : World),
      (removeFilesLoop env R items w).world.tree.lookup k = w.tree.lookup k := by
  intro items
  induction items with
  | nil => intro w; rfl
  | cons x rest ih =>
    obtain ⟨k0, v0⟩ := x
    intro w
    simp only [removeFilesLoop]
    split
    · exact ih w
    · rename_i hs
      have hne : k ≠ k0 := by
        rintro rfl
        apply hk
        simpa using hs
      split
      · rfl
      · simp only [ih]
        exact AList.lookup_erase_ne hne

theorem removeFilesLoop_shrink (env : Env) (R : GoMap) (k : String) :
    ∀ (items : List (Sigma (fun _ : String => String))) (w : World),
      (removeFilesLoop env R items w).world.tree.lookup k = none ∨
      (removeFilesLoop env R items w).world.tree.lookup k = w.tree.lookup k := by
  intro items
  induction items with
  | nil => intro w; exact Or.inr rfl
  | cons x rest ih =>
    obtain ⟨k0, v0⟩ := x
    intro w
    simp only [removeFilesLoop]
    split
    · exact ih w
    · split
      · exact Or.inr rfl
      · rcases ih ⟨w.tree.erase k0, w.bucket⟩ with h | h
        · exact Or.inl h
        · by_cases hne : k = k0
          · subst hne
            left
            simp only [h]
            exact AList.lookup_erase _ _
          · right
            simp only [h]
            exact AList.lookup_erase_ne hne

theorem removeFilesLoop_applied (env : Env) (R : GoMap) (k : String) :
    ∀ (items : List (Sigma (fun _ : String => String))) (w : World),
      Event.remove k true ∈ (removeFilesLoop env R items w).trace →
      (removeFilesLoop env R items w).world.tree.lookup k = none := by
  intro items
  induction items with
  | nil => intro w h; simp [removeFilesLoop] at h
  | cons x rest ih =>
    obtain ⟨k0, v0⟩ := x
    intro w h
    simp only [removeFilesLoop] at h ⊢
    split
    · rename_i hs
      simp only [hs, if_true] at h
      exact ih w h
    · rename_i hs
      simp only [hs] at h
      split
      · rename_i hf
        simp [hf] at h
      · rename_i hf
        simp only [hf] at h
        rcases List.mem_cons.mp h with h' | h'
        · cases h'
          rcases removeFilesLoop_shrink env R k rest ⟨w.tree.erase k, w.bucket⟩ with hh | hh
          · exact hh
          · simp only [hh]
            exact AList.lookup_erase _ _
        · exact ih _ h'

/-! ## Range order and the test of the transfer loops -/

theorem order_mem_iff (ro : RangeOrder) (i : Nat) (m : GoMap) (k v : String) :
    (⟨k, v⟩ : Sigma (fun _ : String => String)) ∈ ro.order i m ↔ m.lookup k = some v := by
  rw [(ro.perm i m).mem_iff, ← AList.mem_lookup_iff]
  simp

theorem order_nodupKeys (ro : RangeOrder) (i : Nat) (m : GoMap) :
    (ro.order i m).NodupKeys :=
  (List.perm_nodupKeys (ro.perm i m)).mpr m.nodupKeys

theorem needsTransfer_true_iff (dest : GoMap) (k v : String) :
    needsTransfer dest k v = true ↔
      (dest.lookup k = none ∨ ∃ d, dest.lookup k = some d ∧ d ≠ v) := by
  unfold needsTransfer
  cases h : dest.lookup k with
  | none => simp
  | some d =>
    simp only [bne_iff_ne, ne_eq, Option.some.injEq, exists_eq_left', false_or, reduceCtorEq]
    exact ⟨fun h1 h2 => h1 h2.symm, fun h1 h2 => h1 h2.symm⟩

theorem needsTransfer_false_iff (dest : GoMap) (k v : String) :
    needsTransfer dest k v = false ↔ dest.lookup k = some v := by
  unfold needsTransfer
  cases h : dest.lookup k with
  | none => simp
  | some d =>
    simp only [bne_eq_false_iff_eq, Option.some.injEq]
    exact ⟨fun h1 => h1.symm, fun h1 => h1.symm⟩

/-! ## The two loops of `uploadToS3` together -/

theorem uploadReconcile_eq (env : Env) (ro : RangeOrder) (de : Bool) (L R : GoMap) (w : World) :
    uploadReconcile env ro de L R w =
      if (uploadLoop env R (ro.order 0 L) w).err = none ∧ de = true then
        ⟨(deleteObjectsLoop env L (ro.order 1 R) (uploadLoop env R (ro.order 0 L) w).world).world,
          (uploadLoop env R (ro.order 0 L) w).trace ++
            (deleteObjectsLoop env L (ro.order 1 R)
              (uploadLoop env R (ro.order 0 L) w).world).trace,
          (deleteObjectsLoop env L (ro.order 1 R) (uploadLoop env R (ro.order 0 L) w).world).err⟩
      else uploadLoop env R (ro.order 0 L) w := by
  unfold uploadReconcile
  cases h : (uploadLoop env R (ro.order 0 L) w).err with
  | some e =>
    simp only [reduceCtorEq, false_and, if_false]
    split
    · rfl
    · rename_i h2; rw [h] at h2; cases h2
  | none =>
    cases de with
    | true =>
      simp only [and_self, if_true]
      split
      · rename_i e h2; rw [h] at h2; cases h2
      · rfl
    | false =>
      simp only [Bool.false_eq_true, and_false, if_false]
      split
      · rfl
      · rfl

theorem uploadReconcile_tree (env : Env) (ro : RangeOrder) (de : Bool) (L R : GoMap)
    (w : World) : (uploadReconcile env ro de L R w).world.tree = w.tree := by
  rw [uploadReconcile_eq]
  split
  · simp only [deleteObjectsLoop_tree, uploadLoop_tree]
  · exact uploadLoop_tree env R _ w

theorem uploadReconcile_events (env : Env) (ro : RangeOrder) (de : Bool) (L R : GoMap)
    (w : World) :
    ∀ e ∈ (uploadReconcile env ro de L R w).trace,
      (∃ k v ok, e = .upload k ok ∧ L.lookup k = some v ∧ needsTransfer R k v = true) ∨
      (∃ k v, e = .skipped k ∧ L.lookup k = some v ∧ needsTransfer R k v = false) ∨
      (∃ k v ok, e = .deleteObject k ok ∧ de = true ∧ R.lookup k = some v ∧
        L.lookup k = none) := by
  intro e he
  have hup : e ∈ (uploadLoop env R (ro.order 0 L) w).trace →
      (∃ k v ok, e = .upload k ok ∧ L.lookup k = some v ∧ needsTransfer R k v = true) ∨
      (∃ k v, e = .skipped k ∧ L.lookup k = some v ∧ needsTransfer R k v = false) ∨
      (∃ k v ok, e = .deleteObject k ok ∧ de = true ∧ R.lookup k = some v ∧
        L.lookup k = none) := by
    intro h
    rcases uploadLoop_events env R _ w e h with ⟨k, v, ok, h1, h2, h3⟩ | ⟨k, v, h1, h2, h3⟩
    · exact Or.inl ⟨k, v, ok, h1, (order_mem_iff ro 0 L k v).mp h2, h3⟩
    · exact Or.inr (Or.inl ⟨k, v, h1, (order_mem_iff ro 0 L k v).mp h2, h3⟩)
  rw [uploadReconcile_eq] at he
  split at he
  · rename_i hc
    rcases List.mem_append.mp he with h | h
    · exact hup h
    · obtain ⟨k, v, ok, h1, h2, h3⟩ := deleteObjectsLoop_events env L _ _ e h
      exact Or.inr (Or.inr ⟨k, v, ok, h1, hc.2, (order_mem_iff ro 1 R k v).mp h2, h3⟩)
  · exact hup he

theorem uploadReconcile_complete (env : Env) (ro : RangeOrder) (de : Bool) (L R : GoMap)
    (w : World) (herr : (uploadReconcile env ro de L R w).err = none) :
    (∀ k v, L.lookup k = some v →
      (needsTransfer R k v = true →
        Event.upload k true ∈ (uploadReconcile env ro de L R w).trace) ∧
      (needsTransfer R k v = false →
        Event.skipped k ∈ (uploadReconcile env ro de L R w).trace)) ∧
    (de = true → ∀ k v, R.lookup k = some v → L.lookup k = none →
      Event.deleteObject k true ∈ (uploadReconcile env ro de L R w).trace) := by
  rw [uploadReconcile_eq] at herr ⊢
  split
  · rename_i hc
    simp only [hc, and_self, if_true] at herr
    refine ⟨fun k v hL => ?_, fun _ k v hR hL => ?_⟩
    · have := uploadLoop_complete env R _ w hc.1 k v ((order_mem_iff ro 0 L k v).mpr hL)
      exact ⟨fun h => List.mem_append_left _ (this.1 h),
        fun h => List.mem_append_left _ (this.2 h)⟩
    · exact List.mem_append_right _
        (deleteObjectsLoop_complete env L _ _ herr k v ((order_mem_iff ro 1 R k v).mpr hR) hL)
  · rename_i hc
    simp only [hc, if_false] at herr
    refine ⟨fun k v hL => ?_, fun hde => ?_⟩
    · exact uploadLoop_complete env R _ w herr k v ((order_mem_iff ro 0 L k v).mpr hL)
    · exact absurd ⟨herr, hde⟩ hc

theorem uploadReconcile_uploaded (env : Env) (ro : RangeOrder) (de : Bool) (L R : GoMap)
    (w : World) (k : String)
    (h : Event.upload k true ∈ (uploadReconcile env ro de L R w).trace) :
    ∃ c, w.tree.lookup k = some (.file c) ∧
      (uploadReconcile env ro de L R w).world.bucket.lookup k = some ⟨c, env.tagOf c⟩ := by
  have hL : L.lookup k ≠ none := by
    rcases uploadReconcile_events env ro de L R w _ h with
      ⟨k', v, ok, h1, h2, _⟩ | ⟨k', v, h1, _⟩ | ⟨k', v, ok, h1, _⟩
    · cases h1; simp [h2]
    · cases h1
    · cases h1
  rw [uploadReconcile_eq] at h ⊢
  split
  · rename_i hc
    simp only [hc, and_self, if_true] at h
    rcases List.mem_append.mp h with h' | h'
    · obtain ⟨c, hc1, hc2⟩ := uploadLoop_applied env R k _ w (order_nodupKeys ro 0 L) h'
      refine ⟨c, hc1, ?_⟩
      simp only [deleteObjectsLoop_frame env L k hL]
      exact hc2
    · obtain ⟨k', v, ok, h1, _⟩ := deleteObjectsLoop_events env L _ _ _ h'
      cases h1
  · rename_i hc
    simp only [hc, if_false] at h
    exact uploadLoop_applied env R k _ w (order_nodupKeys ro 0 L) h

theorem uploadReconcile_deleted (env : Env) (ro : RangeOrder) (de : Bool) (L R : GoMap)
    (w : World) (k : String)
    (h : Event.deleteObject k true ∈ (uploadReconcile env ro de L R w).trace) :
    (uploadReconcile env ro de L R w).world.bucket.lookup k = none := by
  rw [uploadReconcile_eq] at h ⊢
  split
  · rename_i hc
    simp only [hc, and_self, if_true] at h
    rcases List.mem_append.mp h with h' | h'
    · rcases uploadLoop_events env R _ w _ h' with ⟨k', v, ok, h1, _⟩ | ⟨k', v, h1, _⟩
      · cases h1
      · cases h1
    · exact deleteObjectsLoop_applied env L k _ _ h'
  · rename_i hc
    simp only [hc, if_false] at h
    rcases uploadLoop_events env R _ w _ h with ⟨k', v, ok, h1, _⟩ | ⟨k', v, h1, _⟩
    · cases h1
    · cases h1

theorem uploadReconcile_kept (env : Env) (ro : RangeOrder) (de : Bool) (L R : GoMap)
    (w : World) (k : String)
    (hskip : ∀ v, L.lookup k = some v → needsTransfer R k v = false)
    (hdel : L.lookup k ≠ none ∨ de = false) :
    (uploadReconcile env ro de L R w).world.bucket.lookup k = w.bucket.lookup k := by
  have hup := uploadLoop_frame env R k (ro.order 0 L) w
    (fun v hv => hskip v ((order_mem_iff ro 0 L k v).mp hv))
  rw [uploadReconcile_eq]
  split
  · rename_i hc
    rcases hdel with hL | hde
    · simp only [deleteObjectsLoop_frame env L k hL]
      exact hup
    · rw [hc.2] at hde
      cases hde
  · exact hup

theorem uploadReconcile_gone (env : Env) (ro : RangeOrder) (de : Bool) (L R : GoMap)
    (w : World) (k : String) (hL : L.lookup k = none) :
    (uploadReconcile env ro de L R w).world.bucket.lookup k = none ∨
    (uploadReconcile env ro de L R w).world.bucket.lookup k = w.bucket.lookup k := by
  have hup := uploadLoop_frame env R k (ro.order 0 L) w (fun v hv => by
    have := (order_mem_iff ro 0 L k v).mp hv
    rw [hL] at this
    cases this)
  rw [uploadReconcile_eq]
  split
  · rcases deleteObjectsLoop_shrink env L k (ro.order 1 R)
      (uploadLoop env R (ro.order 0 L) w).world with h | h
    · exact Or.inl h
    · right
      simp only [h]
      exact hup
  · exact Or.inr hup

/-! ## The two loops of `downloadToLocal` together -/

theorem downloadReconcile_eq (env : Env) (ro : RangeOrder) (de : Bool) (L R : GoMap) (w : World) :
    downloadReconcile env ro de L R w =
      if (downloadLoop env L (ro.order 0 R) w).err = none ∧ de = true then
        ⟨(removeFilesLoop env R (ro.order 1 L) (downloadLoop env L (ro.order 0 R) w).world).world,
          (downloadLoop env L (ro.order 0 R) w).trace ++
            (removeFilesLoop env R (ro.order 1 L)
              (downloadLoop env L (ro.order 0 R) w).world).trace,
          (removeFilesLoop env R (ro.order 1 L) (downloadLoop env L (ro.order 0 R) w).world).err⟩
      else downloadLoop env L (ro.order 0 R) w := by
  unfold downloadReconcile
  cases h : (downloadLoop env L (ro.order 0 R) w).err with
  | some e =>
    simp only [reduceCtorEq, false_and, if_false]
    split
    · rfl
    · rename_i h2; rw [h] at h2; cases h2
  | none =>
    cases de with
    | true =>
      simp only [and_self, if_true]
      split
      · rename_i e h2; rw [h] at h2; cases h2
      · rfl
    | false =>
      simp only [Bool.false_eq_true, and_false, if_false]
      split
      · rfl
      · rfl

theorem downloadReconcile_bucket (env : Env) (ro : RangeOrder) (de : Bool) (L R : GoMap)
    (w : World) : (downloadReconcile env ro de L R w).world.bucket = w.bucket := by
  rw [downloadReconcile_eq]
  split
  · simp only [removeFilesLoop_bucket, downloadLoop_bucket]
  · exact downloadLoop_bucket env L _ w

theorem downloadReconcile_events (env : Env) (ro : RangeOrder) (de : Bool) (L R : GoMap)
    (w : World) :
    ∀ e ∈ (downloadReconcile env ro de L R w).trace,
      (∃ k v ok, e = .download k ok ∧ R.lookup k = some v ∧ needsTransfer L k v = true) ∨
      (∃ k v, e = .skipped k ∧ R.lookup k = some v ∧ needsTransfer L k v = false) ∨
      (∃ k v ok, e = .remove k ok ∧ de = true ∧ L.lookup k = some v ∧
        R.lookup k = none) := by
  intro e he
  have hup : e ∈ (downloadLoop env L (ro.order 0 R) w).trace →
      (∃ k v ok, e = .download k ok ∧ R.lookup k = some v ∧ needsTransfer L k v = true) ∨
      (∃ k v, e = .skipped k ∧ R.lookup k = some v ∧ needsTransfer L k v = false) ∨
      (∃ k v ok, e = .remove k ok ∧ de = true ∧ L.lookup k = some v ∧
        R.lookup k = none) := by
    intro h
    rcases downloadLoop_events env L _ w e h with ⟨k, v, ok, h1, h2, h3⟩ | ⟨k, v, h1, h2, h3⟩
    · exact Or.inl ⟨k, v, ok, h1, (order_mem_iff ro 0 R k v).mp h2, h3⟩
    · exact Or.inr (Or.inl ⟨k, v, h1, (order_mem_iff ro 0 R k v).mp h2, h3⟩)
  rw [downloadReconcile_eq] at he
  split at he
  · rename_i hc
    rcases List.mem_append.mp he with h | h
    · exact hup h
    · obtain ⟨k, v, ok, h1, h2, h3⟩ := removeFilesLoop_events env R _ _ e h
      exact Or.inr (Or.inr ⟨k, v, ok, h1, hc.2, (order_mem_iff ro 1 L k v).mp h2, h3⟩)
  · exact hup he

theorem downloadReconcile_complete (env : Env) (ro : RangeOrder) (de : Bool) (L R : GoMap)
    (w : World) (herr : (downloadReconcile env ro de L R w).err = none) :
    (∀ k v, R.lookup k = some v →
      (needsTransfer L k v = true →
        Event.download k true ∈ (downloadReconcile env ro de L R w).trace) ∧
      (needsTransfer L k v = false →
        Event.skipped k ∈ (downloadReconcile env ro de L R w).trace)) ∧
    (de = true → ∀ k v, L.lookup k = some v → R.lookup k = none →
      Event.remove k true ∈ (downloadReconcile env ro de L R w).trace) := by
  rw [downloadReconcile_eq] at herr ⊢
  split
  · rename_i hc
    simp only [hc, and_self, if_true] at herr
    refine ⟨fun k v hR => ?_, fun _ k v hL hR => ?_⟩
    · have := downloadLoop_complete env L _ w hc.1 k v ((order_mem_iff ro 0 R k v).mpr hR)
      exact ⟨fun h => List.mem_append_left _ (this.1 h),
        fun h => List.mem_append_left _ (this.2 h)⟩
    · exact List.mem_append_right _
        (removeFilesLoop_complete env R _ _ herr k v ((order_mem_iff ro 1 L k v).mpr hL) hR)
  · rename_i hc
    simp only [hc, if_false] at herr
    refine ⟨fun k v hR => ?_, fun hde => ?_⟩
    · exact downloadLoop_complete env L _ w herr k v ((order_mem_iff ro 0 R k v).mpr hR)
    · exact absurd ⟨herr, hde⟩ hc

theorem order_clean (env : Env) (ro : RangeOrder) (i : Nat) (R : GoMap)
    (hclean : ∀ k' v, R.lookup k' = some v → landing env.localDir k' = .inside k') :
    ∀ k' v, (⟨k', v⟩ : Sigma (fun _ : String => String)) ∈ ro.order i R →
      landing env.localDir k' = .inside k' :=
  fun k' v hv => hclean k' v ((order_mem_iff ro i R k' v).mp hv)

theorem downloadReconcile_downloaded (env : Env) (ro : RangeOrder) (de : Bool) (L R : GoMap)
    (w : World) (k : String)
    (hclean : ∀ k' v, R.lookup k' = some v → landing env.localDir k' = .inside k')
    (h : Event.download k true ∈ (downloadReconcile env ro de L R w).trace) :
    ∃ o, w.bucket.lookup k = some o ∧
      (downloadReconcile env ro de L R w).world.tree.lookup k = some (.file o.body) := by
  have hR : R.lookup k ≠ none := by
    rcases downloadReconcile_events env ro de L R w _ h with
      ⟨k', v, ok, h1, h2, _⟩ | ⟨k', v, h1, _⟩ | ⟨k', v, ok, h1, _⟩
    · cases h1; simp [h2]
    · cases h1
    · cases h1
  rw [downloadReconcile_eq] at h ⊢
  split
  · rename_i hc
    simp only [hc, and_self, if_true] at h
    rcases List.mem_append.mp h with h' | h'
    · obtain ⟨c, hc1, hc2⟩ := downloadLoop_applied env L k _ w (order_clean env ro 0 R hclean)
        (order_nodupKeys ro 0 R) h'
      refine ⟨c, hc1, ?_⟩
      simp only [removeFilesLoop_frame env R k hR]
      exact hc2
    · obtain ⟨k', v, ok, h1, _⟩ := removeFilesLoop_events env R _ _ _ h'
      cases h1
  · rename_i hc
    simp only [hc, if_false] at h
    exact downloadLoop_applied env L k _ w (order_clean env ro 0 R hclean)
        (order_nodupKeys ro 0 R) h

theorem downloadReconcile_removed (env : Env) (ro : RangeOrder) (de : Bool) (L R : GoMap)
    (w : World) (k : String)
    (h : Event.remove k true ∈ (downloadReconcile env ro de L R w).trace) :
    (downloadReconcile env ro de L R w).world.tree.lookup k = none := by
  rw [downloadReconcile_eq] at h ⊢
  split
  · rename_i hc
    simp only [hc, and_self, if_true] at h
    rcases List.mem_append.mp h with h' | h'
    · rcases downloadLoop_events env L _ w _ h' with ⟨k', v, ok, h1, _⟩ | ⟨k', v, h1, _⟩
      · cases h1
      · cases h1
    · exact removeFilesLoop_applied env R k _ _ h'
  · rename_i hc
    simp only [hc, if_false] at h
    rcases downloadLoop_events env L _ w _ h with ⟨k', v, ok, h1, _⟩ | ⟨k', v, h1, _⟩
    · cases h1
    · cases h1

theorem downloadReconcile_kept (env : Env) (ro : RangeOrder) (de : Bool) (L R : GoMap)
    (w : World) (k : String)
    (hclean : ∀ k' v, R.lookup k' = some v → landing env.localDir k' = .inside k')
    (hskip : ∀ v, R.lookup k = some v → needsTransfer L k v = false)
    (hdel : R.lookup k ≠ none ∨ de = false) :
    (downloadReconcile env ro de L R w).world.tree.lookup k = w.tree.lookup k := by
  have hup := downloadLoop_frame env L k (ro.order 0 R) w (order_clean env ro 0 R hclean)
    (fun v hv => hskip v ((order_mem_iff ro 0 R k v).mp hv))
  rw [downloadReconcile_eq]
  split
  · rename_i hc
    rcases hdel with hR | hde
    · simp only [removeFilesLoop_frame env R k hR]
      exact hup
    · rw [hc.2] at hde
      cases hde
  · exact hup

theorem downloadReconcile_gone (env : Env) (ro : RangeOrder) (de : Bool) (L R : GoMap)
    (w : World) (k : String)
    (hclean : ∀ k' v, R.lookup k' = some v → landing env.localDir k' = .inside k')
    (hR : R.lookup k = none) :
    (downloadReconcile env ro de L R w).world.tree.lookup k = none ∨
    (downloadReconcile env ro de L R w).world.tree.lookup k = w.tree.lookup k := by
  have hup := downloadLoop_frame env L k (ro.order 0 R) w (order_clean env ro 0 R hclean)
    (fun v hv => by
    have := (order_mem_iff ro 0 R k v).mp hv
    rw [hR] at this
    cases this)
  rw [downloadReconcile_eq]
  split
  · rcases removeFilesLoop_shrink env R k (ro.order 1 L)
      (downloadLoop env L (ro.order 0 R) w).world with h | h
    · exact Or.inl h
    · right
      simp only [h]
      exact hup
  · exact Or.inr hup

/-! ## Whole runs -/

theorem uploadToS3_cases (env : Env) (ro : RangeOrder) (de : Bool) (w : World) :
    ((uploadToS3 env ro de w).world = w ∧ (uploadToS3 env ro de w).trace = [] ∧
      (uploadToS3 env ro de w).err ≠ none) ∨
    ∃ L R, localInventory env w = .ok L ∧ remoteInventory env w = .ok R ∧
      uploadToS3 env ro de w = uploadReconcile env ro de L R w := by
  unfold uploadToS3
  split
  · left; simp
  · split
    · left; simp
    · split
      · left; simp
      · rename_i L hL
        split
        · left; simp
        · rename_i R hR
          exact Or.inr ⟨L, R, hL, hR, rfl⟩

theorem uploadToS3_eq (env : Env) (ro : RangeOrder) (de : Bool) (w : World) (L R : GoMap)
    (hL : localInventory env w = .ok L) (hR : remoteInventory env w = .ok R)
    (herr : (uploadToS3 env ro de w).err = none) :
    uploadToS3 env ro de w = uploadReconcile env ro de L R w := by
  rcases uploadToS3_cases env ro de w with ⟨_, _, h⟩ | ⟨L', R', hL', hR', h⟩
  · exact absurd herr h
  · rw [hL] at hL'
    rw [hR] at hR'
    cases hL'
    cases hR'
    exact h

theorem downloadToLocal_cases (env : Env) (ro : RangeOrder) (de : Bool) (w : World) :
    ((downloadToLocal env ro de w).world = w ∧ (downloadToLocal env ro de w).trace = [] ∧
      (downloadToLocal env ro de w).err ≠ none) ∨
    ∃ L R, localInventory env w = .ok L ∧ remoteInventory env w = .ok R ∧
      downloadToLocal env ro de w = downloadReconcile env ro de L R w := by
  unfold downloadToLocal
  split
  · left; simp
  · split
    · left; simp
    · split
      · left; simp
      · rename_i L hL
        split
        · left; simp
        · rename_i R hR
          exact Or.inr ⟨L, R, hL, hR, rfl⟩

theorem downloadToLocal_eq (env : Env) (ro : RangeOrder) (de : Bool) (w : World) (L R : GoMap)
    (hL : localInventory env w = .ok L) (hR : remoteInventory env w = .ok R)
    (herr : (downloadToLocal env ro de w).err = none) :
    downloadToLocal env ro de w = downloadReconcile env ro de L R w := by
  rcases downloadToLocal_cases env ro de w with ⟨_, _, h⟩ | ⟨L', R', hL', hR', h⟩
  · exact absurd herr h
  · rw [hL] at hL'
    rw [hR] at hR'
    cases hL'
    cases hR'
    exact h

theorem uploadToS3_cases_of (env : Env) (ro : RangeOrder) (de : Bool) (w : World) (L R : GoMap)
    (hL : localInventory env w = .ok L) (hR : remoteInventory env w = .ok R) :
    ((uploadToS3 env ro de w).world = w ∧ (uploadToS3 env ro de w).trace = [] ∧
      (uploadToS3 env ro de w).err ≠ none) ∨
    uploadToS3 env ro de w = uploadReconcile env ro de L R w := by
  rcases uploadToS3_cases env ro de w with h | ⟨L', R', hL', hR', h⟩
  · exact Or.inl h
  · rw [hL] at hL'
    rw [hR] at hR'
    cases hL'
    cases hR'
    exact Or.inr h

theorem downloadToLocal_cases_of (env : Env) (ro : RangeOrder) (de : Bool) (w : World)
    (L R : GoMap)
    (hL : localInventory env w = .ok L) (hR : remoteInventory env w = .ok R) :
    ((downloadToLocal env ro de w).world = w ∧ (downloadToLocal env ro de w).trace = [] ∧
      (downloadToLocal env ro de w).err ≠ none) ∨
    downloadToLocal env ro de w = downloadReconcile env ro de L R w := by
  rcases downloadToLocal_cases env ro de w with h | ⟨L', R', hL', hR', h⟩
  · exact Or.inl h
  · rw [hL] at hL'
    rw [hR] at hR'
    cases hL'
    cases hR'
    exact Or.inr h

theorem mem_iff_lookup {β : Type} (m : AList (fun _ : String => β)) (k : String) :
    k ∈ m ↔ ∃ v, m.lookup k = some v := by
  rw [← AList.lookup_isSome, Option.isSome_iff_exists]

theorem not_mem_iff_lookup {β : Type} (m : AList (fun _ : String => β)) (k : String) :
    k ∉ m ↔ m.lookup k = none :=
  AList.lookup_eq_none.symm

theorem remote_keys_clean (env : Env) (w : World) (R : GoMap)
    (hR : remoteInventory env w = .ok R)
    (hkeys : ∀ k ∈ w.bucket.keys, isRelPath k = true) :
    ∀ k' v, R.lookup k' = some v → landing env.localDir k' = .inside k' := by
  intro k' v hv
  apply landing_of_isRelPath
  apply hkeys
  rw [remoteInventory_lookup env w R hR k'] at hv
  cases hb : w.bucket.lookup k' with
  | none => rw [hb] at hv; cases hv
  | some o => exact AList.mem_keys.mp ((mem_iff_lookup w.bucket k').mpr ⟨o, hb⟩)

/-! ## C1: what is transferred -/

/-- C1: in a run of `uploadToS3` that returns no error, a key is uploaded exactly when it is
a key of the local inventory `L` that is absent from the remote inventory `R` or has a
different value there, and a key is reported as skipped exactly when it is a key of `L`
with the same value in `R`, in which case no upload call is made for it; the same holds for
`downloadToLocal` with the two inventories exchanged. -/
theorem transfers_exactly_new_or_changed (env : Env) (ro : RangeOrder) (deleteExtra : Bool)
    (w : World) (L R : GoMap)
    (hL : localInventory env w = .ok L) (hR : remoteInventory env w = .ok R) :
    ((uploadToS3 env ro deleteExtra w).err = none → ∀ k,
      (Event.upload k true ∈ (uploadToS3 env ro deleteExtra w).trace ↔
        ∃ v, L.lookup k = some v ∧ (R.lookup k = none ∨ ∃ d, R.lookup k = some d ∧ d ≠ v)) ∧
      (Event.skipped k ∈ (uploadToS3 env ro deleteExtra w).trace ↔
        ∃ v, L.lookup k = some v ∧ R.lookup k = some v) ∧
      (Event.skipped k ∈ (uploadToS3 env ro deleteExtra w).trace →
        ∀ ok, Event.upload k ok ∉ (uploadToS3 env ro deleteExtra w).trace)) ∧
    ((downloadToLocal env ro deleteExtra w).err = none → ∀ k,
      (Event.download k true ∈ (downloadToLocal env ro deleteExtra w).trace ↔
        ∃ v, R.lookup k = some v ∧ (L.lookup k = none ∨ ∃ d, L.lookup k = some d ∧ d ≠ v)) ∧
      (Event.skipped k ∈ (downloadToLocal env ro deleteExtra w).trace ↔
        ∃ v, R.lookup k = some v ∧ L.lookup k = some v) ∧
      (Event.skipped k ∈ (downloadToLocal env ro deleteExtra w).trace →
        ∀ ok, Event.download k ok ∉ (downloadToLocal env ro deleteExtra w).trace)) := by
  constructor
  · intro herr k
    have heq := uploadToS3_eq env ro deleteExtra w L R hL hR herr
    rw [heq] at herr ⊢
    have hev := uploadReconcile_events env ro deleteExtra L R w
    have hco := (uploadReconcile_complete env ro deleteExtra L R w herr).1
    have hskip : Event.skipped k ∈ (uploadReconcile env ro deleteExtra L R w).trace →
        ∃ v, L.lookup k = some v ∧ R.lookup k = some v := by
      intro h
      rcases hev _ h with ⟨k', v, ok, h1, _⟩ | ⟨k', v, h1, h2, h3⟩ | ⟨k', v, ok, h1, _⟩
      · cases h1
      · cases h1
        exact ⟨v, h2, (needsTransfer_false_iff R k v).mp h3⟩
      · cases h1
    refine ⟨⟨fun h => ?_, fun ⟨v, h1, h2⟩ => ?_⟩, ⟨hskip, fun ⟨v, h1, h2⟩ => ?_⟩,
      fun h ok hup => ?_⟩
    · rcases hev _ h with ⟨k', v, ok, h1, h2, h3⟩ | ⟨k', v, h1, _⟩ | ⟨k', v, ok, h1, _⟩
      · cases h1
        exact ⟨v, h2, (needsTransfer_true_iff R k v).mp h3⟩
      · cases h1
      · cases h1
    · exact (hco k v h1).1 ((needsTransfer_true_iff R k v).mpr h2)
    · exact (hco k v h1).2 ((needsTransfer_false_iff R k v).mpr h2)
    · obtain ⟨v, h1, h2⟩ := hskip h
      rcases hev _ hup with ⟨k', v', ok', h3, h4, h5⟩ | ⟨k', v', h3, _⟩ | ⟨k', v', ok', h3, _⟩
      · cases h3
        rw [h1] at h4
        cases h4
        rw [(needsTransfer_false_iff R k v).mpr h2] at h5
        cases h5
      · cases h3
      · cases h3
  · intro herr k
    have heq := downloadToLocal_eq env ro deleteExtra w L R hL hR herr
    rw [heq] at herr ⊢
    have hev := downloadReconcile_events env ro deleteExtra L R w
    have hco := (downloadReconcile_complete env ro deleteExtra L R w herr).1
    have hskip : Event.skipped k ∈ (downloadReconcile env ro deleteExtra L R w).trace →
        ∃ v, R.lookup k = some v ∧ L.lookup k = some v := by
      intro h
      rcases hev _ h with ⟨k', v, ok, h1, _⟩ | ⟨k', v, h1, h2, h3⟩ | ⟨k', v, ok, h1, _⟩
      · cases h1
      · cases h1
        exact ⟨v, h2, (needsTransfer_false_iff L k v).mp h3⟩
      · cases h1
    refine ⟨⟨fun h => ?_, fun ⟨v, h1, h2⟩ => ?_⟩, ⟨hskip, fun ⟨v, h1, h2⟩ => ?_⟩,
      fun h ok hup => ?_⟩
    · rcases hev _ h with ⟨k', v, ok, h1, h2, h3⟩ | ⟨k', v, h1, _⟩ | ⟨k', v, ok, h1, _⟩
      · cases h1
        exact ⟨v, h2, (needsTransfer_true_iff L k v).mp h3⟩
      · cases h1
      · cases h1
    · exact (hco k v h1).1 ((needsTransfer_true_iff L k v).mpr h2)
    · exact (hco k v h1).2 ((needsTransfer_false_iff L k v).mpr h2)
    · obtain ⟨v, h1, h2⟩ := hskip h
      rcases hev _ hup with ⟨k', v', ok', h3, h4, h5⟩ | ⟨k', v', h3, _⟩ | ⟨k', v', ok', h3, _⟩
      · cases h3
        rw [h1] at h4
        cases h4
        rw [(needsTransfer_false_iff L k v).mpr h2] at h5
        cases h5
      · cases h3
      · cases h3

/-- C1 at the sample world, with deletion on: `index.json` differs on the two sides and is
uploaded, and is downloaded by a pull. -/
theorem transfers_exactly_new_or_changed_witness :
    (Event.upload "index.json" true ∈ (uploadToS3 sampleEnv rangeStored true sampleWorld).trace ↔
      ∃ v, sampleLocalFiles.lookup "index.json" = some v ∧
        (sampleS3Objects.lookup "index.json" = none ∨
          ∃ d, sampleS3Objects.lookup "index.json" = some d ∧ d ≠ v)) ∧
    (Event.download "index.json" true ∈
        (downloadToLocal sampleEnv rangeStored true sampleWorld).trace ↔
      ∃ v, sampleS3Objects.lookup "index.json" = some v ∧
        (sampleLocalFiles.lookup "index.json" = none ∨
          ∃ d, sampleLocalFiles.lookup "index.json" = some d ∧ d ≠ v)) :=
  ⟨((transfers_exactly_new_or_changed sampleEnv rangeStored true sampleWorld sampleLocalFiles
      sampleS3Objects rfl rfl).1 (by decide) "index.json").1,
   ((transfers_exactly_new_or_changed sampleEnv rangeStored true sampleWorld sampleLocalFiles
      sampleS3Objects rfl rfl).2 (by decide) "index.json").1⟩

/-! ## C2: what is deleted -/

/-- C2: a run of `uploadToS3`, with any flag and whether it succeeds or not, makes delete
calls only for keys of the remote inventory `R` that are absent from the local inventory
`L`; when `deleteExtra` is true and the run returns no error, the objects deleted are
exactly those keys, and they are gone from the bucket afterwards.  The same holds for
`downloadToLocal` and the local files whose key is in `L` and absent from `R`. -/
theorem deletes_exactly_destination_only (env : Env) (ro : RangeOrder) (w : World)
    (L R : GoMap)
    (hL : localInventory env w = .ok L) (hR : remoteInventory env w = .ok R) :
    (∀ de k ok, Event.deleteObject k ok ∈ (uploadToS3 env ro de w).trace → k ∈ R ∧ k ∉ L) ∧
    ((uploadToS3 env ro true w).err = none → ∀ k,
      (Event.deleteObject k true ∈ (uploadToS3 env ro true w).trace ↔ k ∈ R ∧ k ∉ L) ∧
      (k ∈ R ∧ k ∉ L → (uploadToS3 env ro true w).world.bucket.lookup k = none)) ∧
    (∀ de k ok, Event.remove k ok ∈ (downloadToLocal env ro de w).trace → k ∈ L ∧ k ∉ R) ∧
    ((downloadToLocal env ro true w).err = none → ∀ k,
      (Event.remove k true ∈ (downloadToLocal env ro true w).trace ↔ k ∈ L ∧ k ∉ R) ∧
      (k ∈ L ∧ k ∉ R → (downloadToLocal env ro true w).world.tree.lookup k = none)) := by
  have hup : ∀ de k ok, Event.deleteObject k ok ∈ (uploadToS3 env ro de w).trace →
      k ∈ R ∧ k ∉ L := by
    intro de k ok h
    rcases uploadToS3_cases_of env ro de w L R hL hR with ⟨_, ht, _⟩ | heq
    · rw [ht] at h
      cases h
    · rw [heq] at h
      rcases uploadReconcile_events env ro de L R w _ h with
        ⟨k', v, ok', h1, _⟩ | ⟨k', v, h1, _⟩ | ⟨k', v, ok', h1, _, h2, h3⟩
      · cases h1
      · cases h1
      · cases h1
        exact ⟨(mem_iff_lookup R k).mpr ⟨v, h2⟩, (not_mem_iff_lookup L k).mpr h3⟩
  have hdown : ∀ de k ok, Event.remove k ok ∈ (downloadToLocal env ro de w).trace →
      k ∈ L ∧ k ∉ R := by
    intro de k ok h
    rcases downloadToLocal_cases_of env ro de w L R hL hR with ⟨_, ht, _⟩ | heq
    · rw [ht] at h
      cases h
    · rw [heq] at h
      rcases downloadReconcile_events env ro de L R w _ h with
        ⟨k', v, ok', h1, _⟩ | ⟨k', v, h1, _⟩ | ⟨k', v, ok', h1, _, h2, h3⟩
      · cases h1
      · cases h1
      · cases h1
        exact ⟨(mem_iff_lookup L k).mpr ⟨v, h2⟩, (not_mem_iff_lookup R k).mpr h3⟩
  refine ⟨hup, fun herr k => ?_, hdown, fun herr k => ?_⟩
  · have hall : k ∈ R ∧ k ∉ L →
        Event.deleteObject k true ∈ (uploadToS3 env ro true w).trace := by
      rintro ⟨h1, h2⟩
      have heq := uploadToS3_eq env ro true w L R hL hR herr
      rw [heq] at herr ⊢
      obtain ⟨v, hv⟩ := (mem_iff_lookup R k).mp h1
      exact (uploadReconcile_complete env ro true L R w herr).2 rfl k v hv
        ((not_mem_iff_lookup L k).mp h2)
    refine ⟨⟨hup true k true, hall⟩, fun h => ?_⟩
    have hin := hall h
    have heq := uploadToS3_eq env ro true w L R hL hR herr
    rw [heq] at hin ⊢
    exact uploadReconcile_deleted env ro true L R w k hin
  · have hall : k ∈ L ∧ k ∉ R →
        Event.remove k true ∈ (downloadToLocal env ro true w).trace := by
      rintro ⟨h1, h2⟩
      have heq := downloadToLocal_eq env ro true w L R hL hR herr
      rw [heq] at herr ⊢
      obtain ⟨v, hv⟩ := (mem_iff_lookup L k).mp h1
      exact (downloadReconcile_complete env ro true L R w herr).2 rfl k v hv
        ((not_mem_iff_lookup R k).mp h2)
    refine ⟨⟨hdown true k true, hall⟩, fun h => ?_⟩
    have hin := hall h
    have heq := downloadToLocal_eq env ro true w L R hL hR herr
    rw [heq] at hin ⊢
    exact downloadReconcile_removed env ro true L R w k hin

/-- C2 at the sample world: a push with deletion deletes exactly `extra.json`, a pull with
deletion removes exactly `newfile.json`. -/
theorem deletes_exactly_destination_only_witness :
    (Event.deleteObject "extra.json" true ∈
        (uploadToS3 sampleEnv rangeReversed true sampleWorld).trace ↔
      "extra.json" ∈ sampleS3Objects ∧ "extra.json" ∉ sampleLocalFiles) ∧
    (Event.remove "newfile.json" true ∈
        (downloadToLocal sampleEnv rangeReversed true sampleWorld).trace ↔
      "newfile.json" ∈ sampleLocalFiles ∧ "newfile.json" ∉ sampleS3Objects) :=
  ⟨((deletes_exactly_destination_only sampleEnv rangeReversed sampleWorld sampleLocalFiles
      sampleS3Objects rfl rfl).2.1 (by decide) "extra.json").1,
   ((deletes_exactly_destination_only sampleEnv rangeReversed sampleWorld sampleLocalFiles
      sampleS3Objects rfl rfl).2.2.2 (by decide) "newfile.json").1⟩

/-! ## C3: no deletion without the flag -/

theorem localInventory_file (env : Env) (w : World) (L : GoMap)
    (hL : localInventory env w = .ok L) (k v : String) (h : L.lookup k = some v) :
    ∃ c, w.tree.lookup k = some (.file c) ∧ v = env.computeMD5Checksum c := by
  rw [localInventory_lookup env w L hL k] at h
  cases hn : w.tree.lookup k with
  | none => rw [hn] at h; cases h
  | some n =>
    cases n with
    | dir => rw [hn] at h; cases h
    | file c =>
      rw [hn] at h
      simp only [Option.some.injEq] at h
      exact ⟨c, rfl, h.symm⟩

theorem localInventory_congr (env env2 : Env) (w w2 : World) (L L2 : GoMap)
    (hmd5 : env2.computeMD5Checksum = env.computeMD5Checksum) (htree : w2.tree = w.tree)
    (hL : localInventory env w = .ok L) (hL2 : localInventory env2 w2 = .ok L2) (k : String) :
    L2.lookup k = L.lookup k := by
  rw [localInventory_lookup env w L hL k, localInventory_lookup env2 w2 L2 hL2 k, htree, hmd5]

/-- C5: if every local file's bytes are tagged by the store, on a put, with a tag that the
listing normalises to the fingerprint of those bytes, and a run of `uploadToS3` returns no
error, then a second run on the resulting world, with the same fingerprint function and the
same flag (and any range order, page size and call failures), makes no upload call and no
delete call. -/
theorem push_idempotent (env env2 : Env) (ro ro2 : RangeOrder) (deleteExtra : Bool)
    (w : World) (hmd5 : env2.computeMD5Checksum = env.computeMD5Checksum)
    (htag : ∀ k c, w.tree.lookup k = some (.file c) → trimQuotes (env.tagOf c) = env.computeMD5Checksum c)
    (herr : (uploadToS3 env ro deleteExtra w).err = none) :
    (∀ k ok, Event.upload k ok ∉
      (uploadToS3 env2 ro2 deleteExtra (uploadToS3 env ro deleteExtra w).world).trace) ∧
    (∀ k ok, Event.deleteObject k ok ∉
      (uploadToS3 env2 ro2 deleteExtra (uploadToS3 env ro deleteExtra w).world).trace) := by
  rcases uploadToS3_cases env ro deleteExtra w with ⟨_, _, hne⟩ | ⟨L, R, hL, hR, heq⟩
  · exact absurd herr hne
  rw [heq] at herr ⊢
  have htree := uploadReconcile_tree env ro deleteExtra L R w
  rcases uploadToS3_cases env2 ro2 deleteExtra (uploadReconcile env ro deleteExtra L R w).world
    with ⟨_, hnil, _⟩ | ⟨L2, R2, hL2, hR2, heq2⟩
  · rw [hnil]
    simp
  rw [heq2]
  have hLL : ∀ k, L2.lookup k = L.lookup k :=
    localInventory_congr env env2 w _ L L2 hmd5 htree hL hL2
  have hco := uploadReconcile_complete env ro deleteExtra L R w herr
  have hA : ∀ k v, L.lookup k = some v → R2.lookup k = some v := by
    intro k v hv
    obtain ⟨c, hc, hvc⟩ := localInventory_file env w L hL k v hv
    rw [remoteInventory_lookup env2 _ R2 hR2 k]
    cases hn : needsTransfer R k v with
    | true =>
      have hin := (hco.1 k v hv).1 hn
      obtain ⟨c', hc', hb⟩ := uploadReconcile_uploaded env ro deleteExtra L R w k hin
      rw [hc] at hc'
      cases hc'
      rw [hb]
      simp only [Option.map_some']
      rw [htag k c hc, hvc]
    | false =>
      have hk := uploadReconcile_kept env ro deleteExtra L R w k
        (fun v' hv' => by rw [hv] at hv'; cases hv'; exact hn)
        (Or.inl (by rw [hv]; simp))
      rw [hk, ← remoteInventory_lookup env w R hR k]
      exact (needsTransfer_false_iff R k v).mp hn
  have hB : deleteExtra = true → ∀ k, L.lookup k = none → R2.lookup k = none := by
    intro hde k hk
    rw [remoteInventory_lookup env2 _ R2 hR2 k]
    rcases uploadReconcile_gone env ro deleteExtra L R w k hk with h | h
    · rw [h]
      rfl
    · cases hb : w.bucket.lookup k with
      | none =>
        rw [h, hb]
        rfl
      | some o =>
        have hRk : R.lookup k = some (trimQuotes o.etag) := by
          rw [remoteInventory_lookup env w R hR k, hb]
          rfl
        have hin := hco.2 hde k _ hRk hk
        rw [uploadReconcile_deleted env ro deleteExtra L R w k hin]
        rfl
  constructor
  · intro k ok h
    rcases uploadReconcile_events env2 ro2 deleteExtra L2 R2 _ _ h with
      ⟨k', v, ok', h1, h2, h3⟩ | ⟨k', v, h1, _⟩ | ⟨k', v, ok', h1, _⟩
    · cases h1
      rw [hLL] at h2
      rw [(needsTransfer_false_iff R2 k v).mpr (hA k v h2)] at h3
      cases h3
    · cases h1
    · cases h1
  · intro k ok h
    rcases uploadReconcile_events env2 ro2 deleteExtra L2 R2 _ _ h with
      ⟨k', v, ok', h1, _⟩ | ⟨k', v, h1, _⟩ | ⟨k', v, ok', h1, hde, h2, h3⟩
    · cases h1
    · cases h1
    · cases h1
      rw [hLL] at h3
      rw [hB hde k h3] at h2
      cases h2

theorem sampleTree_tagged (k : String) (c : Bytes)
    (h : sampleWorld.tree.lookup k = some (.file c)) :
    trimQuotes (sampleEnv.tagOf c) = sampleEnv.computeMD5Checksum c := by
  have hmem := AList.mem_lookup_iff.mp (Option.mem_def.mpr h)
  simp only [sampleWorld, sampleTree, AList.insert_entries, AList.empty_entries] at hmem
  simp [List.kerase] at hmem
  rcases hmem with ⟨_, rfl⟩ | ⟨_, rfl⟩ | ⟨_, rfl⟩ <;> decide

/-- C5 at the sample world: after a push with deletion, a second push in another range
order uploads nothing and deletes nothing. -/
theorem push_idempotent_witness :
    (∀ k ok, Event.upload k ok ∉
      (uploadToS3 sampleEnv rangeReversed true
        (uploadToS3 sampleEnv rangeStored true sampleWorld).world).trace) ∧
    (∀ k ok, Event.deleteObject k ok ∉
      (uploadToS3 sampleEnv rangeReversed true
        (uploadToS3 sampleEnv rangeStored true sampleWorld).world).trace) :=
  push_idempotent sampleEnv sampleEnv rangeStored rangeReversed true sampleWorld rfl
    sampleTree_tagged (by decide)

/-! ## C6: pull idempotence -/

theorem localInventory_congr_at (env env2 : Env) (w w2 : World) (L L2 : GoMap)
    (hmd5 : env2.computeMD5Checksum = env.computeMD5Checksum)
    (hL : localInventory env w = .ok L) (hL2 : localInventory env2 w2 = .ok L2) (k : String)
    (hk : w2.tree.lookup k = w.tree.lookup k) :
    L2.lookup k = L.lookup k := by
  rw [localInventory_lookup env w L hL k, localInventory_lookup env2 w2 L2 hL2 k, hk, hmd5]

/-- C6, as the code has it: a successful pull listed in the sample environment from a
bucket whose object carries a multi-part tag is followed by a second pull that downloads
the same object again; and so is a successful pull of the object `mvs/`, whose tag is the
fingerprint of its bytes: it is written to the file `mvs`, which no key of the bucket
names. -/
theorem pull_repeats_on_opaque_tag :
    ((downloadToLocal sampleEnv rangeStored false multipartWorld).err = none ∧
      Event.download "big.bin" true ∈
        (downloadToLocal sampleEnv rangeStored false
          (downloadToLocal sampleEnv rangeStored false multipartWorld).world).trace) ∧
    ((downloadToLocal sampleEnv rangeStored false slashKeyWorld).err = none ∧
      (slashKeyWorld.bucket.lookup "mvs/").map
          (fun o => decide (trimQuotes o.etag = sampleEnv.computeMD5Checksum o.body))
        = some true ∧
      Event.download "mvs/" true ∈
        (downloadToLocal sampleEnv rangeStored false
          (downloadToLocal sampleEnv rangeStored false slashKeyWorld).world).trace) := by
  decide

/-- C6, amended: if every object key is a clean relative path, every object that a run of
`downloadToLocal` downloads has a listed tag that normalises to the fingerprint of its
bytes, and the run returns no error, then a second run on the resulting world, with the same
fingerprint function and the same flag (and any range order, page size and call failures),
makes no download call and no remove call. -/
theorem pull_idempotent (env env2 : Env) (ro ro2 : RangeOrder) (deleteExtra : Bool)
    (w : World) (hmd5 : env2.computeMD5Checksum = env.computeMD5Checksum)
    (hkeys : ∀ k ∈ w.bucket.keys, isRelPath k = true)
    (htag : ∀ k o, w.bucket.lookup k = some o →
      Event.download k true ∈ (downloadToLocal env ro deleteExtra w).trace →
      trimQuotes o.etag = env.computeMD5Checksum o.body)
    (herr : (downloadToLocal env ro deleteExtra w).err = none) :
    (∀ k ok, Event.download k ok ∉
      (downloadToLocal env2 ro2 deleteExtra (downloadToLocal env ro deleteExtra w).world).trace) ∧
    (∀ k ok, Event.remove k ok ∉
      (downloadToLocal env2 ro2 deleteExtra
        (downloadToLocal env ro deleteExtra w).world).trace) := by
  rcases downloadToLocal_cases env ro deleteExtra w with ⟨_, _, hne⟩ | ⟨L, R, hL, hR, heq⟩
  · exact absurd herr hne
  rw [heq] at herr htag ⊢
  have hclean := remote_keys_clean env w R hR hkeys
  have hbucket := downloadReconcile_bucket env ro deleteExtra L R w
  rcases downloadToLocal_cases env2 ro2 deleteExtra
      (downloadReconcile env ro deleteExtra L R w).world
    with ⟨_, hnil, _⟩ | ⟨L2, R2, hL2, hR2, heq2⟩
  · rw [hnil]
    simp
  rw [heq2]
  have hRR : ∀ k, R2.lookup k = R.lookup k := by
    intro k
    rw [remoteInventory_lookup env2 _ R2 hR2 k, remoteInventory_lookup env w R hR k, hbucket]
  have hco := downloadReconcile_complete env ro deleteExtra L R w herr
  have hA : ∀ k v, R.lookup k = some v → L2.lookup k = some v := by
    intro k v hv
    cases hn : needsTransfer L k v with
    | true =>
      have hin := (hco.1 k v hv).1 hn
      obtain ⟨o, ho, ht⟩ :=
        downloadReconcile_downloaded env ro deleteExtra L R w k hclean hin
      rw [localInventory_lookup env2 _ L2 hL2 k, ht]
      simp only
      rw [hmd5, ← htag k o ho hin]
      rw [remoteInventory_lookup env w R hR k, ho] at hv
      exact hv
    | false =>
      have hk := downloadReconcile_kept env ro deleteExtra L R w k hclean
        (fun v' hv' => by rw [hv] at hv'; cases hv'; exact hn)
        (Or.inl (by rw [hv]; simp))
      rw [localInventory_congr_at env env2 w _ L L2 hmd5 hL hL2 k hk]
      exact (needsTransfer_false_iff L k v).mp hn
  have hB : deleteExtra = true → ∀ k, R.lookup k = none → L2.lookup k = none := by
    intro hde k hk
    have hnone : (downloadReconcile env ro deleteExtra L R w).world.tree.lookup k = none →
        L2.lookup k = none := by
      intro h
      rw [localInventory_lookup env2 _ L2 hL2 k, h]
    rcases downloadReconcile_gone env ro deleteExtra L R w k hclean hk with h | h
    · exact hnone h
    · cases hl : L.lookup k with
      | none =>
        rw [localInventory_congr_at env env2 w _ L L2 hmd5 hL hL2 k h]
        exact hl
      | some v =>
        have hin := hco.2 hde k v hl hk
        exact hnone (downloadReconcile_removed env ro deleteExtra L R w k hin)
  constructor
  · intro k ok h
    rcases downloadReconcile_events env2 ro2 deleteExtra L2 R2 _ _ h with
      ⟨k', v, ok', h1, h2, h3⟩ | ⟨k', v, h1, _⟩ | ⟨k', v, ok', h1, _⟩
    · cases h1
      rw [hRR] at h2
      rw [(needsTransfer_false_iff L2 k v).mpr (hA k v h2)] at h3
      cases h3
    · cases h1
    · cases h1
  · intro k ok h
    rcases downloadReconcile_events env2 ro2 deleteExtra L2 R2 _ _ h with
      ⟨k', v, ok', h1, _⟩ | ⟨k', v, h1, _⟩ | ⟨k', v, ok', h1, hde, h2, h3⟩
    · cases h1
    · cases h1
    · cases h1
      rw [hRR] at h3
      rw [hB hde k h3] at h2
      cases h2

theorem sampleBucket_tagged (k : String) (o : Object)
    (h : sampleWorld.bucket.lookup k = some o) :
    trimQuotes o.etag = sampleEnv.computeMD5Checksum o.body := by
  have hmem := AList.mem_lookup_iff.mp (Option.mem_def.mpr h)
  simp only [sampleWorld, sampleBucket, AList.insert_entries, AList.empty_entries] at hmem
  simp [List.kerase] at hmem
  rcases hmem with ⟨_, rfl⟩ | ⟨_, rfl⟩ | ⟨_, rfl⟩ <;> decide

/-- C6 amended, at the sample world: after a pull with deletion, a second pull in another
range order downloads nothing and removes nothing. -/
theorem pull_idempotent_witness :
    (∀ k ok, Event.download k ok ∉
      (downloadToLocal sampleEnv rangeReversed true
        (downloadToLocal sampleEnv rangeStored true sampleWorld).world).trace) ∧
    (∀ k ok, Event.remove k ok ∉
      (downloadToLocal sampleEnv rangeReversed true
        (downloadToLocal sampleEnv rangeStored true sampleWorld).world).trace) :=
  pull_idempotent sampleEnv sampleEnv rangeStored rangeReversed true sampleWorld rfl
    (by decide) (fun k o h _ => sampleBucket_tagged k o h) (by decide)

/-! ## C7: round trip -/

theorem remoteInventory_empty (env : Env) (tree : AList (fun _ : String => Node)) (R : GoMap)
    (hR : remoteInventory env ⟨tree, ∅⟩ = .ok R) (k : String) : R.lookup k = none := by
  rw [remoteInventory_lookup env _ R hR k]
  rfl

theorem localInventory_empty (env : Env) (bucket : AList (fun _ : String => Object))
    (L : GoMap) (hL : localInventory env ⟨∅, bucket⟩ = .ok L) (k : String) :
    L.lookup k = none := by
  rw [localInventory_lookup env _ L hL k]
  rfl

theorem needsTransfer_of_absent (dest : GoMap) (k v : String) (h : dest.lookup k = none) :
    needsTransfer dest k v = true :=
  (needsTransfer_true_iff dest k v).mpr (Or.inl h)

/-- C7: if `uploadToS3` of a local tree `D`, whose files have the relative paths that
`filepath.Rel` gives them (clean relative paths), into an empty bucket returns no error, and
`downloadToLocal` of the resulting bucket into an empty directory returns no error, then the
directory holds at every relative path of a file of `D` a file with the same bytes, and
nothing at any other path. -/
theorem round_trip (env env2 : Env) (ro ro2 : RangeOrder) (de de2 : Bool)
    (D : AList (fun _ : String => Node))
    (hpaths : ∀ k c, D.lookup k = some (.file c) → isRelPath k = true)
    (hup : (uploadToS3 env ro de ⟨D, ∅⟩).err = none)
    (hdown : (downloadToLocal env2 ro2 de2
      ⟨∅, (uploadToS3 env ro de ⟨D, ∅⟩).world.bucket⟩).err = none) :
    ∀ k, (downloadToLocal env2 ro2 de2
        ⟨∅, (uploadToS3 env ro de ⟨D, ∅⟩).world.bucket⟩).world.tree.lookup k =
      match D.lookup k with
      | some (.file c) => some (.file c)
      | _ => none := by
  intro k
  rcases uploadToS3_cases env ro de ⟨D, ∅⟩ with ⟨_, _, hne⟩ | ⟨L, R, hL, hR, heq⟩
  · exact absurd hup hne
  rw [heq] at hup hdown ⊢
  have hRe := remoteInventory_empty env D R hR
  have hco := uploadReconcile_complete env ro de L R ⟨D, ∅⟩ hup
  -- the bucket after the push
  have hbucket : ∀ k, (uploadReconcile env ro de L R ⟨D, ∅⟩).world.bucket.lookup k =
      match D.lookup k with
      | some (.file c) => some ⟨c, env.tagOf c⟩
      | _ => none := by
    intro k
    cases hl : L.lookup k with
    | some v =>
      obtain ⟨c, hc, _⟩ := localInventory_file env _ L hL k v hl
      have hin := (hco.1 k v hl).1 (needsTransfer_of_absent R k v (hRe k))
      obtain ⟨c', hc', hb⟩ := uploadReconcile_uploaded env ro de L R ⟨D, ∅⟩ k hin
      rw [hc] at hc'
      cases hc'
      have hc2 : D.lookup k = some (.file c) := hc
      rw [hb, hc2]
    | none =>
      have hD : (match D.lookup k with
          | some (.file c) => some (⟨c, env.tagOf c⟩ : Object)
          | _ => none) = none := by
        have := localInventory_lookup env ⟨D, ∅⟩ L hL k
        rw [hl] at this
        cases hd : D.lookup k with
        | none => rfl
        | some n =>
          cases n with
          | dir => rfl
          | file c =>
            have hd2 : (⟨D, ∅⟩ : World).tree.lookup k = some (.file c) := hd
            rw [hd2] at this
            cases this
      rw [hD]
      rcases uploadReconcile_gone env ro de L R ⟨D, ∅⟩ k hl with h | h
      · exact h
      · rw [h]
        rfl
  rcases downloadToLocal_cases env2 ro2 de2
      ⟨∅, (uploadReconcile env ro de L R ⟨D, ∅⟩).world.bucket⟩
    with ⟨_, _, hne⟩ | ⟨L2, R2, hL2, hR2, heq2⟩
  · exact absurd hdown hne
  rw [heq2] at hdown ⊢
  have hLe := localInventory_empty env2 _ L2 hL2
  have hco2 := downloadReconcile_complete env2 ro2 de2 L2 R2 _ hdown
  have hclean : ∀ k' v, R2.lookup k' = some v →
      landing env2.localDir k' = .inside k' := by
    intro k' v hv
    rw [remoteInventory_lookup env2 _ R2 hR2 k'] at hv
    have hv2 : ((uploadReconcile env ro de L R ⟨D, ∅⟩).world.bucket.lookup k').map
        (fun o => trimQuotes o.etag) = some v := hv
    rw [hbucket k'] at hv2
    cases hd : D.lookup k' with
    | none => rw [hd] at hv2; cases hv2
    | some n =>
      cases n with
      | dir => rw [hd] at hv2; cases hv2
      | file c => exact landing_of_isRelPath _ _ (hpaths k' c hd)
  cases hr : R2.lookup k with
  | some v =>
    have hin := (hco2.1 k v hr).1 (needsTransfer_of_absent L2 k v (hLe k))
    obtain ⟨o, ho, ht⟩ := downloadReconcile_downloaded env2 ro2 de2 L2 R2 _ k hclean hin
    rw [ht]
    have ho2 : (uploadReconcile env ro de L R ⟨D, ∅⟩).world.bucket.lookup k = some o := ho
    rw [hbucket k] at ho2
    cases hd : D.lookup k with
    | none => rw [hd] at ho2; cases ho2
    | some n =>
      cases n with
      | dir => rw [hd] at ho2; cases ho2
      | file c =>
        rw [hd] at ho2
        cases ho2
        rfl
  | none =>
    have hb := remoteInventory_lookup env2 _ R2 hR2 k
    rw [hr] at hb
    have hb2 : (uploadReconcile env ro de L R ⟨D, ∅⟩).world.bucket.lookup k = none := by
      cases hx : (uploadReconcile env ro de L R ⟨D, ∅⟩).world.bucket.lookup k with
      | none => rfl
      | some o =>
        have hx2 : (⟨∅, (uploadReconcile env ro de L R ⟨D, ∅⟩).world.bucket⟩ :
            World).bucket.lookup k = some o := hx
        rw [hx2] at hb
        cases hb
    have hD : (match D.lookup k with
        | some (.file c) => some (Node.file c)
        | _ => none) = none := by
      rw [hbucket k] at hb2
      cases hd : D.lookup k with
      | none => rfl
      | some n =>
        cases n with
        | dir => rfl
        | file c => rw [hd] at hb2; cases hb2
    rw [hD]
    rcases downloadReconcile_gone env2 ro2 de2 L2 R2 _ k hclean hr with h | h
    · exact h
    · rw [h]
      rfl

theorem sampleTree_files_clean (k : String) (c : Bytes)
    (h : sampleTree.lookup k = some (.file c)) : isRelPath k = true := by
  have hmem := AList.mem_lookup_iff.mp (Option.mem_def.mpr h)
  simp only [sampleTree, AList.insert_entries, AList.empty_entries] at hmem
  simp [List.kerase] at hmem
  rcases hmem with ⟨rfl, _⟩ | ⟨rfl, _⟩ | ⟨rfl, _⟩ <;> decide

/-- C7 at the sample tree: pushed into an empty bucket and pulled into an empty directory,
`mvs/indexmvs.json` comes back with its bytes and the directory entry `mvs` is not a file. -/
theorem round_trip_witness :
    (downloadToLocal sampleEnv rangeReversed false
        ⟨∅, (uploadToS3 sampleEnv rangeStored false ⟨sampleTree, ∅⟩).world.bucket⟩
      ).world.tree.lookup "mvs/indexmvs.json" =
      match sampleTree.lookup "mvs/indexmvs.json" with
      | some (.file c) => some (.file c)
      | _ => none :=
  round_trip sampleEnv sampleEnv rangeStored rangeReversed false false sampleTree
    sampleTree_files_clean (by decide) (by decide) "mvs/indexmvs.json"

/-! ## C8: content wins -/

theorem walk_error_of_fault (env : Env) :
    ∀ (l : List (Sigma (fun _ : String => Node))) (m : GoMap),
      (∃ p n, (⟨p, n⟩ : Sigma (fun _ : String => Node)) ∈ l ∧ walkFault env p n) →
      ∃ e, walk env l m = .error e := by
  intro l
  induction l with
  | nil => intro m ⟨p, n, h, _⟩; cases h
  | cons x rest ih =>
    obtain ⟨p0, n0⟩ := x
    intro m ⟨p, n, hmem, hf⟩
    simp only [walk]
    split
    · exact ⟨_, rfl⟩
    · rename_i hw
      rcases List.mem_cons.mp hmem with hhead | htail
      · cases hhead
        rcases hf with hf | ⟨c, hc, hf⟩
        · exact absurd hf hw
        · subst hc
          simp only
          split
          · exact ⟨_, rfl⟩
          · rename_i hr
            split
            · exact ⟨_, rfl⟩
            · rename_i hm
              rcases hf with hf | hf
              · exact absurd hf hr
              · exact absurd hf hm
      · have hrest : ∃ p n, (⟨p, n⟩ : Sigma (fun _ : String => Node)) ∈ rest ∧
            walkFault env p n := ⟨p, n, htail, hf⟩
        cases n0 with
        | dir => exact ih m hrest
        | file c0 =>
          simp only
          split
          · exact ⟨_, rfl⟩
          · split
            · exact ⟨_, rfl⟩
            · exact ih _ hrest

theorem listObjectsV2Pages_error_of_fault (env : Env) :
    ∀ (ps : List (List (Sigma (fun _ : String => Object)))) (n : Nat) (m : GoMap),
      (∃ i, i < ps.length ∧ env.fails (.listPage (n + i)) = true) →
      ∃ e, listObjectsV2Pages env n ps m = .error e := by
  intro ps
  induction ps with
  | nil => intro n m ⟨i, hi, _⟩; simp at hi
  | cons page rest ih =>
    intro n m ⟨i, hi, hf⟩
    simp only [listObjectsV2Pages]
    split
    · exact ⟨_, rfl⟩
    · rename_i h0
      cases i with
      | zero => exact absurd hf h0
      | succ j =>
        apply ih
        refine ⟨j, by simpa using hi, ?_⟩
        rw [show n + 1 + j = n + (j + 1) by omega]
        exact hf

/-- C9: if the walk of the local directory meets an error at some entry (the entry is
reported with an error, or fingerprinting the file fails), or the request for some page of
the bucket listing fails, then `uploadToS3` and `downloadToLocal` return an error, make no
transfer or deletion call, and leave both sides as they were. -/
theorem failed_inventory_build_is_fatal (env : Env) (ro : RangeOrder) (deleteExtra : Bool)
    (w : World)
    (hfault : (∃ p n, w.tree.lookup p = some n ∧ walkFault env p n) ∨
      (∃ i, i < (pages env.maxKeys w.bucket.entries).length ∧
        env.fails (.listPage i) = true)) :
    ((uploadToS3 env ro deleteExtra w).err ≠ none ∧
      (uploadToS3 env ro deleteExtra w).trace = [] ∧
      (uploadToS3 env ro deleteExtra w).world = w) ∧
    ((downloadToLocal env ro deleteExtra w).err ≠ none ∧
      (downloadToLocal env ro deleteExtra w).trace = [] ∧
      (downloadToLocal env ro deleteExtra w).world = w) := by
  have hbuild : (∃ e, localInventory env w = .error e) ∨
      (∃ e, remoteInventory env w = .error e) := by
    rcases hfault with ⟨p, n, hp, hf⟩ | ⟨i, hi, hf⟩
    · left
      apply walk_error_of_fault env w.tree.entries ∅
      exact ⟨p, n, AList.mem_lookup_iff.mp (Option.mem_def.mpr hp), hf⟩
    · right
      apply listObjectsV2Pages_error_of_fault env _ 0 ∅
      exact ⟨i, hi, by simpa using hf⟩
  constructor
  · rcases uploadToS3_cases env ro deleteExtra w with ⟨h1, h2, h3⟩ | ⟨L, R, hL, hR, _⟩
    · exact ⟨h3, h2, h1⟩
    · rcases hbuild with ⟨e, he⟩ | ⟨e, he⟩
      · rw [hL] at he
        cases he
      · rw [hR] at he
        cases he
  · rcases downloadToLocal_cases env ro deleteExtra w with ⟨h1, h2, h3⟩ | ⟨L, R, hL, hR, _⟩
    · exact ⟨h3, h2, h1⟩
    · rcases hbuild with ⟨e, he⟩ | ⟨e, he⟩
      · rw [hL] at he
        cases he
      · rw [hR] at he
        cases he

/-- C9 at the sample world: when fingerprinting `newfile.json` fails, and when the second
page of the listing fails, a push with deletion returns an error and does nothing. -/
theorem failed_inventory_build_is_fatal_witness :
    ((uploadToS3 sampleWalkFaultEnv rangeStored true sampleWorld).err ≠ none ∧
      (uploadToS3 sampleWalkFaultEnv rangeStored true sampleWorld).trace = [] ∧
      (uploadToS3 sampleWalkFaultEnv rangeStored true sampleWorld).world = sampleWorld) ∧
    ((downloadToLocal sampleListFaultEnv rangeStored true sampleWorld).err ≠ none ∧
      (downloadToLocal sampleListFaultEnv rangeStored true sampleWorld).trace = [] ∧
      (downloadToLocal sampleListFaultEnv rangeStored true sampleWorld).world = sampleWorld) :=
  ⟨(failed_inventory_build_is_fatal sampleWalkFaultEnv rangeStored true sampleWorld
      (Or.inl ⟨"newfile.json", .file [102], by decide,
        Or.inr ⟨[102], rfl, Or.inr (by decide)⟩⟩)).1,
   (failed_inventory_build_is_fatal sampleListFaultEnv rangeStored true sampleWorld
      (Or.inr ⟨1, by decide, by decide⟩)).2⟩

/-! ## C10: the recorded tag -/

theorem dropWhile_quote_of_not_mem (l : List Char) (h : quote ∉ l) :
    l.dropWhile (fun c => c == quote) = l := by
  cases l with
  | nil => rfl
  | cons a t =>
    have ha : (a == quote) = false := by
      simp only [beq_eq_false_iff_ne, ne_eq]
      exact fun e => h (by simp [e])
    simp only [List.dropWhile, ha]

theorem rdropWhile_quote_of_not_mem (l : List Char) (h : quote ∉ l) :
    l.rdropWhile (fun c => c == quote) = l := by
  rw [List.rdropWhile_eq_self_iff]
  intro hl hq
  have : l.getLast hl = quote := by simpa using hq
  exact h (this ▸ List.getLast_mem hl)

theorem trimQuotes_of_no_quote (t : String) (h : quote ∉ t.data) : trimQuotes t = t := by
  unfold trimQuotes
  rw [rdropWhile_quote_of_not_mem _ h, dropWhile_quote_of_not_mem _ h]

theorem trimQuotes_quoted (h : String) (hq : quote ∉ h.data) : trimQuotes (quoted h) = h := by
  unfold trimQuotes quoted
  have h1 : (quote :: h.data ++ [quote]).rdropWhile (fun c => c == quote)
      = (quote :: h.data).rdropWhile (fun c => c == quote) := by
    rw [show quote :: h.data ++ [quote] = (quote :: h.data) ++ [quote] by simp]
    exact List.rdropWhile_concat_pos _ _ _ (by simp)
  simp only [h1]
  cases hd : h.data with
  | nil =>
    have : h = String.mk [] := by
      cases h
      simp at hd
      simp [hd]
    subst this
    simp [List.rdropWhile]
  | cons a t =>
    have hne : a :: t ≠ [] := by simp
    have hlast : (quote :: a :: t).rdropWhile (fun c => c == quote) = quote :: a :: t := by
      rw [List.rdropWhile_eq_self_iff]
      intro hl hp
      have hl2 : (quote :: a :: t).getLast hl = (a :: t).getLast hne := List.getLast_cons hne
      have : (a :: t).getLast hne = quote := by
        rw [← hl2]
        simpa using hp
      rw [hd] at hq
      exact hq (this ▸ List.getLast_mem hne)
    rw [hlast]
    have hdrop : (quote :: a :: t).dropWhile (fun c => c == quote)
        = (a :: t).dropWhile (fun c => c == quote) := by
      simp [List.dropWhile]
    rw [hdrop, dropWhile_quote_of_not_mem _ (by rw [← hd]; exact hq)]
    cases h
    simp at hd
    simp [hd]

theorem trimQuotes_head (t : String) : (trimQuotes t).data.head? ≠ some quote := by
  unfold trimQuotes
  intro h
  have := List.head?_dropWhile_not (fun c => c == quote)
    (t.data.rdropWhile (fun c => c == quote))
  simp only at h
  rw [h] at this
  simp at this

theorem trimQuotes_last (t : String) : (trimQuotes t).data.getLast? ≠ some quote := by
  unfold trimQuotes
  intro h
  simp only at h
  have hne : (t.data.rdropWhile (fun c => c == quote)).dropWhile (fun c => c == quote) ≠ [] := by
    intro e
    rw [e] at h
    cases h
  have hsuf := List.dropWhile_suffix (l := t.data.rdropWhile (fun c => c == quote))
    (fun c => c == quote)
  have hne2 : t.data.rdropWhile (fun c => c == quote) ≠ [] := by
    intro e
    rw [e] at hne
    exact hne rfl
  have hlast := List.IsSuffix.getLast hsuf hne
  rw [List.getLast?_eq_getLast _ hne] at h
  simp only [Option.some.injEq] at h
  rw [hlast] at h
  have := List.rdropWhile_last_not (fun c => c == quote) t.data hne2
  apply this
  rw [h]
  simp

/-- C10: when the listing succeeds, the value recorded for a key in the remote inventory is
the listed tag of the object with that key passed through `strings.Trim(tag, "\"")`; that
function returns `h` for `h` wrapped in one pair of double quotes when `h` holds no double
quote, returns a tag that holds no double quote unchanged, and never returns a string that
begins or ends with a double quote, so no recorded value does. -/
theorem recorded_tag_is_trimmed (env : Env) (w : World) (R : GoMap)
    (hR : remoteInventory env w = .ok R) :
    (∀ k, R.lookup k = (w.bucket.lookup k).map (fun o => trimQuotes o.etag)) ∧
    (∀ h : String, quote ∉ h.data → trimQuotes (quoted h) = h) ∧
    (∀ t : String, quote ∉ t.data → trimQuotes t = t) ∧
    (∀ t : String, (trimQuotes t).data.head? ≠ some quote ∧
      (trimQuotes t).data.getLast? ≠ some quote) ∧
    (∀ k v, R.lookup k = some v →
      v.data.head? ≠ some quote ∧ v.data.getLast? ≠ some quote) := by
  refine ⟨remoteInventory_lookup env w R hR, trimQuotes_quoted, trimQuotes_of_no_quote,
    fun t => ⟨trimQuotes_head t, trimQuotes_last t⟩, fun k v hv => ?_⟩
  rw [remoteInventory_lookup env w R hR k] at hv
  cases hb : w.bucket.lookup k with
  | none => rw [hb] at hv; cases hv
  | some o =>
    rw [hb] at hv
    simp only [Option.map_some', Option.some.injEq] at hv
    subst hv
    exact ⟨trimQuotes_head _, trimQuotes_last _⟩

/-- C10 at the sample world: the object `index.json` is listed with the tag "old" in double
quotes and recorded as "old". -/
theorem recorded_tag_is_trimmed_witness :
    sampleS3Objects.lookup "index.json" =
      (sampleWorld.bucket.lookup "index.json").map (fun o => trimQuotes o.etag) ∧
    trimQuotes (quoted "old") = "old" :=
  ⟨(recorded_tag_is_trimmed sampleEnv sampleWorld sampleS3Objects rfl).1 "index.json",
   (recorded_tag_is_trimmed sampleEnv sampleWorld sampleS3Objects rfl).2.1 "old" (by decide)⟩

/-! ## Success does not depend on the range order -/

/-- C12: in every run of `uploadToS3`, failed or not and with either flag, the local tree
after the run is the local tree before it, and the trace holds no download and no remove
call; in every run of `downloadToLocal` the bucket after the run is the bucket before it,
and the trace holds no upload and no delete-object call. -/
theorem source_side_is_not_modified (env : Env) (ro : RangeOrder) (deleteExtra : Bool)
    (w : World) :
    (uploadToS3 env ro deleteExtra w).world.tree = w.tree ∧
    (∀ k ok, Event.download k ok ∉ (uploadToS3 env ro deleteExtra w).trace ∧
      Event.remove k ok ∉ (uploadToS3 env ro deleteExtra w).trace) ∧
    (downloadToLocal env ro deleteExtra w).world.bucket = w.bucket ∧
    (∀ k ok, Event.upload k ok ∉ (downloadToLocal env ro deleteExtra w).trace ∧
      Event.deleteObject k ok ∉ (downloadToLocal env ro deleteExtra w).trace) := by
  refine ⟨?_, fun k ok => ?_, ?_, fun k ok => ?_⟩
  · rcases uploadToS3_cases env ro deleteExtra w with ⟨hw, _, _⟩ | ⟨L, R, _, _, heq⟩
    · rw [hw]
    · rw [heq]
      exact uploadReconcile_tree env ro deleteExtra L R w
  · rcases uploadToS3_cases env ro deleteExtra w with ⟨_, hnil, _⟩ | ⟨L, R, _, _, heq⟩
    · rw [hnil]
      simp
    · rw [heq]
      constructor
      · intro h
        rcases uploadReconcile_events env ro deleteExtra L R w _ h with
          ⟨k', v, ok', h1, _⟩ | ⟨k', v, h1, _⟩ | ⟨k', v, ok', h1, _⟩
        · cases h1
        · cases h1
        · cases h1
      · intro h
        rcases uploadReconcile_events env ro deleteExtra L R w _ h with
          ⟨k', v, ok', h1, _⟩ | ⟨k', v, h1, _⟩ | ⟨k', v, ok', h1, _⟩
        · cases h1
        · cases h1
        · cases h1
  · rcases downloadToLocal_cases env ro deleteExtra w with ⟨hw, _, _⟩ | ⟨L, R, _, _, heq⟩
    · rw [hw]
    · rw [heq]
      exact downloadReconcile_bucket env ro deleteExtra L R w
  · rcases downloadToLocal_cases env ro deleteExtra w with ⟨_, hnil, _⟩ | ⟨L, R, _, _, heq⟩
    · rw [hnil]
      simp
    · rw [heq]
      constructor
      · intro h
        rcases downloadReconcile_events env ro deleteExtra L R w _ h with
          ⟨k', v, ok', h1, _⟩ | ⟨k', v, h1, _⟩ | ⟨k', v, ok', h1, _⟩
        · cases h1
        · cases h1
        · cases h1
      · intro h
        rcases downloadReconcile_events env ro deleteExtra L R w _ h with
          ⟨k', v, ok', h1, _⟩ | ⟨k', v, h1, _⟩ | ⟨k', v, ok', h1, _⟩
        · cases h1
        · cases h1
        · cases h1


end S3Sync
